import Mathlib

/-!
# Verification of the mathm-chess engine against its specification

This file shallowly embeds the `chess-engine` crate (`src/chess-engine/src/`)
in Lean 4 and settles the frozen claims about it.

Conventions of the embedding:
* Rust `u8`/`u16` fields are modelled by `Nat`; `% 65536` is applied where the
  source increments a `u16`.
* Fallible Rust functions return `Except Error _`.  Rust panics (out-of-bounds
  indexing, `unwrap` on `None`, the non-terminating king scan) are modelled by
  an outer `Option`: `none` means the call panics and produces no value.
* The board is a rank-major 8×8 grid `List (List (Option Piece))`, exactly as
  the Rust `tiles: [[Option<Piece>; 8]; 8]` indexed `tiles[rank][file]`.
  Rank index 0 holds the first FEN row (Black's back rank); this orientation is
  pinned by `Board::from_fen` and the `default_board` test.
* Files absent from the source snapshot (`piece/util.rs` with `threatened_at`,
  `piece/pawn.rs`, `piece/bishop.rs`, `piece/queen.rs`) are modelled from the
  specification; their doc comments start with `Modelled from the spec:`.
-/

namespace Chess

/-- `Color` from `util.rs`. -/
inductive Color where
  | White
  | Black
deriving DecidableEq, Repr

/-- `piece::Kind` from `piece.rs`. -/
inductive Kind where
  | Pawn
  | Rook
  | Knight
  | Bishop
  | Queen
  | King
deriving DecidableEq, Repr

/-- `Piece` from `piece.rs`: a color and a kind. -/
structure Piece where
  color : Color
  kind : Kind
deriving DecidableEq, Repr

/-- `Position` from `util.rs`: a file and a rank, each meant to be in `0..=7`.
The Rust fields are `u8`; we use `Nat` and keep validity as side conditions,
matching `Position::new_unchecked`. -/
structure Position where
  file : Nat
  rank : Nat
deriving DecidableEq, Repr

/-- The `Move` type used by `board.rs`/`game.rs`/`tests.rs`: from, to and an
optional promotion kind.  (The `Move` in the stale `util.rs` lacks the
`promotion` field its callers use; see `StaleParse` below for that file's
parsing functions, embedded as written.) -/
structure Move where
  from_ : Position
  to_ : Position
  promotion : Option Kind := none
deriving DecidableEq, Repr

/-- `error::FenError`. -/
inductive FenError where
  | Pieces
  | NextToMove
  | Castling
  | EnPassant
  | HalfmoveCounter
  | MoveNumber
deriving DecidableEq, Repr

/-- `error::Error`. -/
inductive Error where
  | OtherPlayersTurn
  | NoPieceToMove
  | IllegalMove
  | UnknwonPiece (c : Char)
  | ParsingError
  | FenError (e : FenError)
  | InvalidGameState
  | RequiresPromotion
deriving DecidableEq, Repr

/-- `board::BoardState`. -/
inductive BoardState where
  | Normal
  | Checkmate (winner : Color)
  | Draw
deriving DecidableEq, Repr

/-- `Board` from `board.rs`: the 8×8 tiles plus bookkeeping fields. -/
structure Board where
  tiles : List (List (Option Piece))
  next_to_move : Color
  can_castle_white_kingside : Bool
  can_castle_white_queenside : Bool
  can_castle_black_kingside : Bool
  can_castle_black_queenside : Bool
  en_passant_square : Option Position
  halfmove_counter : Nat
  move_number : Nat
deriving DecidableEq, Repr

/-- `Color::other`.  Modelled from the spec: the method lives in the stale
`util.rs` only implicitly; "other color" is §3 of the spec and its behavior is
pinned by every use in `board.rs`. -/
def Color.other : Color → Color
  | .White => .Black
  | .Black => .White

/-- Modelled from the spec: `Color::home_rank` from the missing current
`util.rs`.  The spec gives each color a home rank used for the rook home
squares; the orientation (White = 7, Black = 0) is pinned by `Board::from_fen`
(rank index 0 holds the first FEN row) and by the `default_board` test, which
places White's rooks at `tiles[7][0]` and `tiles[7][7]`. -/
def Color.homeRank : Color → Nat
  | .White => 7
  | .Black => 0

/-- Modelled from the spec: `Color::backwards` from the missing current
`util.rs` — the rank-delta toward the color's own home rank (§3), used for
en-passant geometry in `make_move`. -/
def Color.backwards : Color → Int
  | .White => 1
  | .Black => -1

/-- The rank-delta of a pawn of this color moving forward (toward the
opponent's home rank): the negation of `backwards`. -/
def Color.forwardDelta (c : Color) : Int := - c.backwards

/-- `Position::new_i8`: validated construction from signed coordinates,
`none` when off the board.  Modelled from the spec (§3: construction from
arbitrary integers must validate); its use is pinned by `knight.rs`/`king.rs`. -/
def Position.newI8 (file rank : Int) : Option Position :=
  if 0 ≤ file ∧ file ≤ 7 ∧ 0 ≤ rank ∧ rank ≤ 7 then
    some ⟨file.toNat, rank.toNat⟩
  else
    none

/-- `ops::Index<Position> for Board`: `tiles[rank][file]`.  Out-of-range
coordinates yield `none` here; every lookup reached through the public
operations is at a validated coordinate. -/
def Board.get (b : Board) (p : Position) : Option Piece :=
  ((b.tiles.getD p.rank []).getD p.file none)

/-- `ops::IndexMut<Position> for Board`: write one tile. -/
def Board.setTile (b : Board) (p : Position) (v : Option Piece) : Board :=
  { b with tiles := b.tiles.set p.rank ((b.tiles.getD p.rank []).set p.file v) }

/-- Well-formedness of the tile grid: 8 ranks of 8 files, as guaranteed by the
Rust type `[[Option<Piece>; 8]; 8]`. -/
def Board.WF (b : Board) : Prop :=
  b.tiles.length = 8 ∧ ∀ row ∈ b.tiles, row.length = 8

instance (b : Board) : Decidable b.WF := by
  unfold Board.WF; infer_instance

/-- `Board::can_castle_kingside`. -/
def Board.canCastleKingside (b : Board) : Color → Bool
  | .White => b.can_castle_white_kingside
  | .Black => b.can_castle_black_kingside

/-- `Board::can_castle_queenside`. -/
def Board.canCastleQueenside (b : Board) : Color → Bool
  | .White => b.can_castle_white_queenside
  | .Black => b.can_castle_black_queenside

/-- `Board::cannot_castle_kingside`. -/
def Board.cannotCastleKingside (b : Board) : Color → Board
  | .White => { b with can_castle_white_kingside := false }
  | .Black => { b with can_castle_black_kingside := false }

/-- `Board::cannot_castle_queenside`. -/
def Board.cannotCastleQueenside (b : Board) : Color → Board
  | .White => { b with can_castle_white_queenside := false }
  | .Black => { b with can_castle_black_queenside := false }

/-- All 64 squares in the row-major order used by `get_king_position` and the
terminal-classification scan in `make_move_unchecked`: rank 0 first, file 0
first within a rank. -/
def allPositions : List Position :=
  (List.range 8).flatMap fun r => (List.range 8).map fun f => ⟨f, r⟩

/-- `Board::get_king_position`, made partial-safe: the Rust loop walks the
squares row-major and runs past the board (panicking on `tiles[8]`) when the
king is absent; `none` models that panic. -/
def Board.getKingPos (b : Board) (c : Color) : Option Position :=
  allPositions.find? fun p => b.get p = some ⟨c, .King⟩

/-- A king of color `c` is somewhere on the board. -/
def Board.hasKing (b : Board) (c : Color) : Prop :=
  ∃ p ∈ allPositions, b.get p = some ⟨c, .King⟩

instance (b : Board) (c : Color) : Decidable (b.hasKing c) := by
  unfold Board.hasKing; infer_instance

/-! ## The threat oracle (`piece/util.rs`, absent from the snapshot) -/

/-- Whether an attacking pawn of color `ac` standing on `p` attacks `t`.
Modelled from the spec §4.1: a pawn attacks the two diagonal squares one rank
toward the opponent's home rank. -/
def pawnAttacks (ac : Color) (p t : Position) : Bool :=
  ((p.file : Int) - t.file).natAbs = 1 ∧ (t.rank : Int) = (p.rank : Int) + ac.forwardDelta

/-- Whether a knight on `p` attacks `t` (the 8 L-shaped offsets, independent of
blockers; spec §4.1). -/
def knightAttacks (p t : Position) : Bool :=
  let df := ((p.file : Int) - t.file).natAbs
  let dr := ((p.rank : Int) - t.rank).natAbs
  (df = 1 ∧ dr = 2) ∨ (df = 2 ∧ dr = 1)

/-- Whether a king on `p` attacks `t` (the 8 adjacent squares; spec §4.1). -/
def kingAttacks (p t : Position) : Bool :=
  let df := ((p.file : Int) - t.file).natAbs
  let dr := ((p.rank : Int) - t.rank).natAbs
  df ≤ 1 ∧ dr ≤ 1 ∧ ¬(df = 0 ∧ dr = 0)

/-- A square blocks a sliding ray: it is occupied and not in `ignore`, or it is
in `phantom` (spec §4.1: ignored squares are treated as empty, phantom squares
as blocking). -/
def blocksRay (b : Board) (ignore phantom : List Position) (q : Position) : Bool :=
  ((b.get q).isSome ∧ q ∉ ignore) ∨ q ∈ phantom

/-- Walk up to `n` further steps of direction `d` starting after `cur`;
true iff the ray reaches `t` before hitting a board edge or a blocking
square (spec §4.1 sliding attack). -/
def rayReaches (b : Board) (ignore phantom : List Position) (d : Int × Int)
    (t : Position) : Nat → Position → Bool
  | 0, _ => false
  | n + 1, cur =>
    match Position.newI8 ((cur.file : Int) + d.1) ((cur.rank : Int) + d.2) with
    | none => false
    | some nxt =>
      if nxt = t then true
      else if blocksRay b ignore phantom nxt then false
      else rayReaches b ignore phantom d t n nxt

/-- The four rook directions (`rook.rs` `DELTAS`). -/
def rookDirs : List (Int × Int) := [(0, 1), (1, 0), (0, -1), (-1, 0)]

/-- The four bishop directions. Modelled from the spec: `bishop.rs` is absent;
the diagonal direction set is §4.1/§4.2. -/
def bishopDirs : List (Int × Int) := [(1, 1), (1, -1), (-1, -1), (-1, 1)]

/-- The eight queen directions. Modelled from the spec: `queen.rs` is absent;
the queen slides along both direction sets (§4.1/§4.2). -/
def queenDirs : List (Int × Int) := rookDirs ++ bishopDirs

/-- A slider on `p` with direction set `dirs` attacks `t` through otherwise
free squares. -/
def slidingAttacks (b : Board) (ignore phantom : List Position)
    (dirs : List (Int × Int)) (p t : Position) : Bool :=
  dirs.any fun d => rayReaches b ignore phantom d t 8 p

/-- Whether the piece `pc` standing on `p` attacks `t` on board `b`, with the
oracle's ignore/phantom overrides applied to sliding rays. -/
def attacksFrom (b : Board) (ignore phantom : List Position) (pc : Piece)
    (p t : Position) : Bool :=
  match pc.kind with
  | .Pawn => pawnAttacks pc.color p t
  | .Knight => knightAttacks p t
  | .King => kingAttacks p t
  | .Rook => slidingAttacks b ignore phantom rookDirs p t
  | .Bishop => slidingAttacks b ignore phantom bishopDirs p t
  | .Queen => slidingAttacks b ignore phantom queenDirs p t

/-- Modelled from the spec: `piece::util::threatened_at` from the missing
`piece/util.rs` (§4.1).  True iff at least one piece of `c.other()` on the
board attacks `at_`, where pieces standing on `ignore` or `phantom` squares do
not count as attackers, `ignore` squares are treated as empty for sliding
blockers, and `phantom` squares block sliding rays.  (That attackers on
`phantom` squares are excluded is pinned by the `pawn_checkmate` test in
`tests.rs`, which requires a capture of the checking piece — simulated by
placing the destination in `phantom` in `knight.rs` — to lift the check.) -/
def threatenedAt (at_ : Position) (ignore phantom : List Position) (c : Color)
    (b : Board) : Bool :=
  allPositions.any fun p =>
    match b.get p with
    | some pc =>
      pc.color = c.other ∧ p ∉ ignore ∧ p ∉ phantom ∧
        attacksFrom b ignore phantom pc p at_
    | none => false

/-! ## Per-piece move generators -/

/-- The 10 king deltas of `king.rs` `Moves::next`, in source order; the last
two are the castling two-file steps. -/
def kingDeltas : List (Int × Int) :=
  [(1, 0), (1, -1), (0, -1), (-1, -1), (-1, 0), (-1, 1), (0, 1), (1, 1), (-2, 0), (2, 0)]

/-- One candidate of `king.rs` `Moves::next` for the delta `d`: `some pos` iff
the iterator emits the square.  `checkcheck(p)` is
`!threatened_at(p, &[from], &[], color, board)` as in the source. -/
def kingCandidate (b : Board) (c : Color) (from_ : Position) :
    Int × Int → Option Position
  | (dx, dy) =>
  match Position.newI8 ((from_.file : Int) + dx) ((from_.rank : Int) + dy) with
  | none => none
  | some pos =>
    if dx = -2 ∧
        (¬b.canCastleQueenside c ∨ threatenedAt from_ [from_] [] c b ∨
          (b.get ⟨from_.file - 1, from_.rank⟩).isSome ∨
          threatenedAt ⟨from_.file - 1, from_.rank⟩ [from_] [] c b) then
      none
    else if dx = 2 ∧
        (¬b.canCastleKingside c ∨ threatenedAt from_ [from_] [] c b ∨
          (b.get ⟨from_.file + 1, from_.rank⟩).isSome ∨
          threatenedAt ⟨from_.file + 1, from_.rank⟩ [from_] [] c b) then
      none
    else
      match b.get pos with
      | none => if threatenedAt pos [from_] [] c b then none else some pos
      | some pc =>
        if pc.color ≠ c ∧ ¬threatenedAt pos [from_] [] c b then some pos else none

/-- The full sequence emitted by `king.rs` `Moves` for a king of color `c` on
`from_`.  The king generator never looks up the king's position, so it never
panics. -/
def kingMovesList (b : Board) (c : Color) (from_ : Position) : List Position :=
  kingDeltas.filterMap (kingCandidate b c from_)

/-- The 8 knight deltas of `knight.rs`, in source order. -/
def knightDeltas : List (Int × Int) :=
  [(2, -1), (1, -2), (-1, -2), (-2, -1), (-2, 1), (-1, 2), (1, 2), (2, 1)]

/-- The raw (occupancy-filtered, pre-`checkcheck`) knight candidates of
`knight.rs` `Moves::next`: on the board and empty or enemy-occupied. -/
def knightRaw (b : Board) (c : Color) (from_ : Position) : List Position :=
  knightDeltas.filterMap fun d =>
    match Position.newI8 ((from_.file : Int) + d.1) ((from_.rank : Int) + d.2) with
    | none => none
    | some pos =>
      match b.get pos with
      | none => some pos
      | some pc => if pc.color ≠ c then some pos else none

/-- Squares a slider emits along one direction: every empty square until the
first occupied one, which is included iff enemy (spec §4.2 sliding semantics;
`piece/util.rs` `floating_moves`/`util::Moves` is absent from the snapshot). -/
def slideRay (b : Board) (c : Color) (d : Int × Int) : Nat → Position → List Position
  | 0, _ => []
  | n + 1, cur =>
    match Position.newI8 ((cur.file : Int) + d.1) ((cur.rank : Int) + d.2) with
    | none => []
    | some nxt =>
      match b.get nxt with
      | none => nxt :: slideRay b c d n nxt
      | some pc => if pc.color ≠ c then [nxt] else []

/-- Modelled from the spec: raw candidates of the sliding generators (rook /
bishop / queen), §4.2: walk each direction, emitting every empty square plus a
first enemy-occupied square. -/
def slidingRaw (b : Board) (c : Color) (dirs : List (Int × Int))
    (from_ : Position) : List Position :=
  dirs.flatMap fun d => slideRay b c d 8 from_

/-- Modelled from the spec: raw candidates of the pawn generator
(`piece/pawn.rs` is absent), §4.2: forward one square if empty; forward two
from the pawn's start rank if both intervening squares are empty; diagonal
capture if the diagonal square holds an opponent piece or equals the current
en-passant target (subject to the common empty-or-opponent policy). -/
def pawnRaw (b : Board) (c : Color) (from_ : Position) : List Position :=
  let fwd := c.forwardDelta
  let startRank : Nat := match c with | .White => 6 | .Black => 1
  let one := Position.newI8 (from_.file : Int) ((from_.rank : Int) + fwd)
  let two := Position.newI8 (from_.file : Int) ((from_.rank : Int) + 2 * fwd)
  let fwd1 : List Position :=
    match one with
    | some p => if b.get p = none then [p] else []
    | none => []
  let fwd2 : List Position :=
    match one, two with
    | some p1, some p2 =>
      if from_.rank = startRank ∧ b.get p1 = none ∧ b.get p2 = none then [p2] else []
    | _, _ => []
  let diag : Int → List Position := fun df =>
    match Position.newI8 ((from_.file : Int) + df) ((from_.rank : Int) + fwd) with
    | some p =>
      match b.get p with
      | some pc => if pc.color ≠ c then [p] else []
      | none => if b.en_passant_square = some p then [p] else []
    | none => []
  fwd1 ++ fwd2 ++ diag (-1) ++ diag 1

/-- The lazily-panicking legality filter shared by the non-king generators:
iterating the Rust iterator panics iff some raw candidate exists and the
mover's king is absent (the first surviving candidate triggers the
`get_king_position` lookup inside `checkcheck`); otherwise it yields the raw
candidates for which the hypothetical move leaves the king unattacked
(`!threatened_at(king, &[from], &[pos], color, board)`, as in `knight.rs`). -/
def legalFilter (b : Board) (c : Color) (from_ : Position)
    (raw : List Position) : Option (List Position) :=
  match raw with
  | [] => some []
  | _ =>
    (b.getKingPos c).map fun kp =>
      raw.filter fun pos => ¬threatenedAt kp [from_] [pos] c b

/-- `Piece::moves` from `piece.rs`, with the outer `Option` modelling a panic
while draining the iterator (missing own king). -/
def pieceMoves (b : Board) (pc : Piece) (from_ : Position) :
    Option (List Position) :=
  match pc.kind with
  | .King => some (kingMovesList b pc.color from_)
  | .Knight => legalFilter b pc.color from_ (knightRaw b pc.color from_)
  | .Rook => legalFilter b pc.color from_ (slidingRaw b pc.color rookDirs from_)
  | .Bishop => legalFilter b pc.color from_ (slidingRaw b pc.color bishopDirs from_)
  | .Queen => legalFilter b pc.color from_ (slidingRaw b pc.color queenDirs from_)
  | .Pawn => legalFilter b pc.color from_ (pawnRaw b pc.color from_)

/-! ## `make_move` (`board.rs`) -/

/-- `Board::switch_next_to_move`: increments the halfmove counter (a `u16` in
the source, hence the modulus), increments the move number when Black moved,
and flips the side to move. -/
def Board.switchNextToMove (b : Board) : Board :=
  let b1 := { b with halfmove_counter := (b.halfmove_counter + 1) % 65536 }
  let b2 :=
    if b1.next_to_move = Color.Black then
      { b1 with move_number := (b1.move_number + 1) % 65536 }
    else b1
  { b2 with next_to_move := b2.next_to_move.other }

/-- The promotion handling of `make_move_unchecked`: on a pawn reaching rank 7
or 0, replace it by the promoted piece, or fail with `RequiresPromotion` when
the promotion kind is absent, `King`, or `Pawn`.  The board passed in has
already been mutated by the relocation. -/
def promStep (b1 : Board) (c : Color) (piece : Piece) (m : Move) :
    Except Error Board :=
  if piece.kind = Kind.Pawn ∧ (m.to_.rank = 7 ∨ m.to_.rank = 0) then
    match m.promotion with
    | none => .error .RequiresPromotion
    | some Kind.King => .error .RequiresPromotion
    | some Kind.Pawn => .error .RequiresPromotion
    | some k => .ok (b1.setTile m.to_ (some ⟨c, k⟩))
  else .ok b1

/-- The castling side effect of `make_move_unchecked`: when a king moved two
files, relocate the rook from its corner to the square beside the king. -/
def castleStep (b : Board) (piece : Piece) (m : Move) : Board :=
  let deltaFile : Int := (m.to_.file : Int) - (m.from_.file : Int)
  if piece.kind = Kind.King ∧ deltaFile.natAbs = 2 then
    let rookPos : Position := ⟨if deltaFile > 0 then 7 else 0, m.to_.rank⟩
    let rookDst : Position := ⟨((m.to_.file : Int) + -deltaFile / 2).toNat, m.to_.rank⟩
    (b.setTile rookPos none).setTile rookDst (b.get rookPos)
  else b

/-- The castling-rights invalidation of `make_move_unchecked`. -/
def markStep (b : Board) (c : Color) (piece : Piece) (m : Move) : Board :=
  let ba :=
    match piece.kind, m.from_.file with
    | Kind.King, _ => (b.cannotCastleKingside c).cannotCastleQueenside c
    | Kind.Rook, 0 => b.cannotCastleQueenside c
    | Kind.Rook, 7 => b.cannotCastleKingside c
    | _, _ => b
  let bb :=
    if m.to_ = (⟨0, c.other.homeRank⟩ : Position) then ba.cannotCastleQueenside c.other
    else ba
  if m.to_ = (⟨7, c.other.homeRank⟩ : Position) then bb.cannotCastleKingside c.other
  else bb

/-- The en-passant capture of `make_move_unchecked`: when a pawn moved onto
the current en-passant square, remove the piece one rank behind it and make it
the captured piece. -/
def epCaptureStep (b : Board) (c : Color) (piece : Piece) (m : Move)
    (captured : Option Piece) : Board × Option Piece :=
  if piece.kind = Kind.Pawn ∧ b.en_passant_square = some m.to_ then
    let target : Position := ⟨m.to_.file, ((m.to_.rank : Int) + c.backwards).toNat⟩
    (b.setTile target none, b.get target)
  else (b, captured)

/-- The en-passant marking of `make_move_unchecked`: a pawn double-step sets
the square it passed over as the new en-passant target; anything else clears
it. -/
def epMarkStep (b : Board) (c : Color) (piece : Piece) (m : Move) : Board :=
  let deltaRank : Int := (m.to_.rank : Int) - (m.from_.rank : Int)
  if piece.kind = Kind.Pawn ∧ deltaRank.natAbs = 2 then
    let eps : Position := ⟨m.to_.file, ((m.to_.rank : Int) + c.backwards).toNat⟩
    { b with en_passant_square := some eps }
  else { b with en_passant_square := none }

/-- The `has_moves` scan of `make_move_unchecked`, square by square in
row-major order; `none` models a panic inside a generator (`count()` on a
piece whose own king is missing). -/
def scanGo (b : Board) : List Position → Option Bool
  | [] => some false
  | p :: rest =>
    match b.get p with
    | some piece =>
      if piece.color = b.next_to_move then
        match pieceMoves b piece p with
        | none => none
        | some [] => scanGo b rest
        | some (_ :: _) => some true
      else scanGo b rest
    | none => scanGo b rest

/-- Whether any piece of the side to move has at least one generated
destination. -/
def scanHasMoves (b : Board) : Option Bool := scanGo b allPositions

/-- The terminal classification at the end of `make_move_unchecked`: checkmate
or stalemate when the new side to move has no moves, a draw when the halfmove
counter is exactly 50, otherwise `Normal`. -/
def classifyStep (b : Board) : Option BoardState :=
  match scanHasMoves b with
  | none => none
  | some true => if b.halfmove_counter = 50 then some .Draw else some .Normal
  | some false =>
    match b.getKingPos b.next_to_move with
    | none => none
    | some kp =>
      if threatenedAt kp [] [] b.next_to_move b then
        some (.Checkmate b.next_to_move.other)
      else some .Draw

/-- `Board::make_move_unchecked`: relocation, promotion, castling side effect,
castling-rights invalidation, en-passant capture and marking, side switch,
halfmove reset, and terminal classification, in source order.  `none` models a
panic. -/
def makeMoveUnchecked (b0 : Board) (m : Move) :
    Option (Except Error BoardState × Board) :=
  match b0.get m.from_ with
  | none => none
  | some piece =>
    let c := b0.next_to_move
    let captured0 := b0.get m.to_
    let b1 := (b0.setTile m.from_ none).setTile m.to_ (some piece)
    match promStep b1 c piece m with
    | .error e => some (.error e, b1)
    | .ok b2 =>
      let b3 := markStep (castleStep b2 piece m) c piece m
      let (b4, captured) := epCaptureStep b3 c piece m captured0
      let b5 := (epMarkStep b4 c piece m).switchNextToMove
      let b6 :=
        if captured.isSome ∨ piece.kind = Kind.Pawn then
          { b5 with halfmove_counter := 0 }
        else b5
      (classifyStep b6).map fun st => (.ok st, b6)

/-- `Board::make_move`: validation (piece present, right color, destination
among the generated moves), then `make_move_unchecked`.  The board is returned
alongside the result since the Rust method mutates in place. -/
def makeMove (b : Board) (m : Move) : Option (Except Error BoardState × Board) :=
  match b.get m.from_ with
  | none => some (.error .NoPieceToMove, b)
  | some piece =>
    if piece.color ≠ b.next_to_move then some (.error .OtherPlayersTurn, b)
    else
      match pieceMoves b piece m.from_ with
      | none => none
      | some dests =>
        if m.to_ ∈ dests then makeMoveUnchecked b m
        else some (.error .IllegalMove, b)

/-- `Board::is_in_check`, generalized to an arbitrary color as in the spec's
`is_in_check_for`; `none` models the panicking king scan on a kingless
board. -/
def Board.isInCheckFor (b : Board) (c : Color) : Option Bool :=
  (b.getKingPos c).map fun kp => threatenedAt kp [] [] c b

/-! ## Parsing from the (stale) `util.rs`, embedded exactly as written -/

/-- `Position::from_str` from `util.rs`, byte-for-byte: rejects strings longer
than 2, checks byte 0 against `'a'..='h'`, then indexes byte 1 without a
length check — `none` models the panic on a 1-character string whose first
character is a valid file letter. -/
def Position.fromStr (s : List Char) : Option (Except Error Position) :=
  if s.length > 2 then some (.error .ParsingError)
  else
    match s.get? 0 with
    | some c =>
      if 'a' ≤ c ∧ c ≤ 'h' then
        match s.get? 1 with
        | none => none
        | some c1 =>
          if '1' ≤ c1 ∧ c1 ≤ '8' then
            some (.ok ⟨c.toNat - 'a'.toNat, c1.toNat - '1'.toNat⟩)
          else some (.error .ParsingError)
      else some (.error .ParsingError)
    | none => some (.error .ParsingError)

/-- `Move::arabic` from `util.rs`, as written in the snapshot: only
4-character strings parse (two square names); every other length — including
the 5-character promotion form — is `ParsingError`. -/
def Move.arabic (s : List Char) : Option (Except Error (Position × Position)) :=
  if s.length = 4 then
    match Position.fromStr (s.take 2) with
    | none => none
    | some (.error e) => some (.error e)
    | some (.ok f) =>
      match Position.fromStr (s.drop 2) with
      | none => none
      | some (.error e) => some (.error e)
      | some (.ok t) => some (.ok (f, t))
  else some (.error .ParsingError)

/-! ## The FEN codec (`board/fen.rs`) -/

/-- `Kind::from_name` (`piece.rs`). -/
def Kind.fromName (c : Char) : Except Error Kind :=
  if c = 'p' ∨ c = 'P' then .ok .Pawn
  else if c = 'r' ∨ c = 'R' then .ok .Rook
  else if c = 'n' ∨ c = 'N' then .ok .Knight
  else if c = 'b' ∨ c = 'B' then .ok .Bishop
  else if c = 'q' ∨ c = 'Q' then .ok .Queen
  else if c = 'k' ∨ c = 'K' then .ok .King
  else .error .ParsingError

/-- `Piece::from_name` (`piece.rs`): uppercase is White. -/
def Piece.fromName (c : Char) : Except Error Piece :=
  (Kind.fromName c).map fun k =>
    ⟨if 'A' ≤ c ∧ c ≤ 'Z' then .White else .Black, k⟩

/-- `Kind::name` (`piece.rs`). -/
def Kind.name : Kind → Char
  | .Pawn => 'P'
  | .Rook => 'R'
  | .Bishop => 'B'
  | .Knight => 'N'
  | .Queen => 'Q'
  | .King => 'K'

/-- `Piece::name` (`piece.rs`): lowercase for Black. -/
def Piece.name (pc : Piece) : Char :=
  if pc.color = Color.Black then pc.kind.name.toLower else pc.kind.name

/-- Rust `char::is_ascii_whitespace`, for `split_ascii_whitespace`. -/
def isAsciiWs (c : Char) : Bool :=
  c = ' ' ∨ c = '\t' ∨ c = '\n' ∨ c = '\x0c' ∨ c = '\r'

/-- `str::split_ascii_whitespace`: maximal non-whitespace runs. -/
def splitWsGo : List Char → List Char → List (List Char)
  | [], acc => if acc.isEmpty then [] else [acc.reverse]
  | c :: rest, acc =>
    if isAsciiWs c then
      if acc.isEmpty then splitWsGo rest [] else acc.reverse :: splitWsGo rest []
    else splitWsGo rest (c :: acc)

/-- Split a string into its whitespace-separated fields. -/
def splitWs (s : List Char) : List (List Char) := splitWsGo s []

/-- The running state of the placement-field parse in `from_fen`. -/
structure PlacementSt where
  tiles : List (List (Option Piece))
  rank : Nat
  file : Nat
  foundW : Bool
  foundB : Bool
deriving DecidableEq, Repr

/-- The initial placement state: an empty 8×8 grid at rank 0, file 0. -/
def initPlacement : PlacementSt :=
  ⟨List.replicate 8 (List.replicate 8 none), 0, 0, false, false⟩

/-- One write into the placement grid. -/
def PlacementSt.write (st : PlacementSt) (pc : Piece) : PlacementSt :=
  { st with
    tiles := st.tiles.set st.rank ((st.tiles.getD st.rank []).set st.file (some pc)),
    file := st.file + 1,
    foundW := st.foundW ∨ pc = (⟨.White, .King⟩ : Piece),
    foundB := st.foundB ∨ pc = (⟨.Black, .King⟩ : Piece) }

/-- The placement loop of `from_fen`: `/` advances the rank, digits skip
files, letters place pieces.  `none` models the Rust panic on an out-of-range
`tiles[rank][file]` write. -/
def placeGo : List Char → PlacementSt → Option (Except Error PlacementSt)
  | [], st => some (.ok st)
  | ch :: rest, st =>
    if ch = '/' then placeGo rest { st with rank := st.rank + 1, file := 0 }
    else if '1' ≤ ch ∧ ch ≤ '8' then
      placeGo rest { st with file := st.file + (ch.toNat - '0'.toNat) }
    else
      match Piece.fromName ch with
      | .error e => some (.error e)
      | .ok pc =>
        if st.rank < 8 ∧ st.file < 8 then placeGo rest (st.write pc)
        else none

/-- The castling-rights loop of `from_fen`. -/
def castleGo : List Char → (Bool × Bool × Bool × Bool) →
    Except Error (Bool × Bool × Bool × Bool)
  | [], fl => .ok fl
  | c :: rest, (wk, wq, bk, bq) =>
    if c = 'K' then castleGo rest (true, wq, bk, bq)
    else if c = 'Q' then castleGo rest (wk, true, bk, bq)
    else if c = 'k' then castleGo rest (wk, wq, true, bq)
    else if c = 'q' then castleGo rest (wk, wq, bk, true)
    else if c = '-' then castleGo rest (wk, wq, bk, bq)
    else .error (.FenError .Castling)

/-- Rust `<u16 as FromStr>::parse`: an optional leading `+`, one or more
ASCII digits, value at most 65535. -/
def parseU16 (s : List Char) : Option Nat :=
  let digits := match s with | '+' :: rest => rest | _ => s
  if digits ≠ [] ∧ digits.all fun c => '0' ≤ c ∧ c ≤ '9' then
    let v := digits.foldl (fun acc c => acc * 10 + (c.toNat - '0'.toNat)) 0
    if v ≤ 65535 then some v else none
  else none

/-- `Board::from_fen` (`board/fen.rs`): the six whitespace-separated fields,
with the field-specific errors of the source and the final check that both
kings were found.  `none` models a panic (placement write out of range, or
the en-passant field panicking inside the stale `Position::from_str`). -/
def Board.fromFen (s : List Char) : Option (Except Error Board) :=
  let parts := splitWs s
  match parts.get? 0 with
  | none => some (.error (.FenError .Pieces))
  | some tilesPart =>
    match placeGo tilesPart initPlacement with
    | none => none
    | some (.error e) => some (.error e)
    | some (.ok st) =>
      match parts.get? 1 with
      | none => some (.error (.FenError .NextToMove))
      | some ntmPart =>
        match (if ntmPart = ['w'] then some Color.White
               else if ntmPart = ['b'] then some Color.Black else none) with
        | none => some (.error (.FenError .NextToMove))
        | some ntm =>
          match parts.get? 2 with
          | none => some (.error (.FenError .Castling))
          | some castlingPart =>
            match castleGo castlingPart (false, false, false, false) with
            | .error e => some (.error e)
            | .ok (wk, wq, bk, bq) =>
              match parts.get? 3 with
              | none => some (.error (.FenError .EnPassant))
              | some epPart =>
                let epRes : Option (Except Error (Option Position)) :=
                  if epPart = ['-'] then some (.ok none)
                  else
                    match Position.fromStr epPart with
                    | none => none
                    | some (.error e) => some (.error e)
                    | some (.ok p) => some (.ok (some p))
                match epRes with
                | none => none
                | some (.error e) => some (.error e)
                | some (.ok eps) =>
                  match parts.get? 4 with
                  | none => some (.error (.FenError .HalfmoveCounter))
                  | some hmPart =>
                    match parseU16 hmPart with
                    | none => some (.error (.FenError .HalfmoveCounter))
                    | some hm =>
                      match parts.get? 5 with
                      | none => some (.error (.FenError .MoveNumber))
                      | some mnPart =>
                        match parseU16 mnPart with
                        | none => some (.error (.FenError .MoveNumber))
                        | some mn =>
                          if ¬st.foundW ∨ ¬st.foundB then
                            some (.error .InvalidGameState)
                          else
                            some (.ok
                              { tiles := st.tiles
                                next_to_move := ntm
                                can_castle_white_kingside := wk
                                can_castle_white_queenside := wq
                                can_castle_black_kingside := bk
                                can_castle_black_queenside := bq
                                en_passant_square := eps
                                halfmove_counter := hm
                                move_number := mn })

/-- Fuel-driven digit expansion; the fuel always suffices below. -/
def natCharsAux : Nat → Nat → List Char
  | 0, _ => []
  | fuel + 1, n =>
    if n < 10 then [Char.ofNat ('0'.toNat + n)]
    else natCharsAux fuel (n / 10) ++ [Char.ofNat ('0'.toNat + n % 10)]

/-- Decimal digits of a `Nat` (`format!` on the counters and skip counts). -/
def natChars (n : Nat) : List Char := natCharsAux (n + 1) n

/-- Modelled from the spec: `Display for Position` from the missing current
`util.rs` — the standard two-character square notation (§2): file letter plus
rank digit.  The digit is `8 - rank` under the grid orientation fixed by
`from_fen`; this is pinned by the `few_simple_moves` test, where the
en-passant square created by `e2e4` (internal rank 5) serializes as `e3`. -/
def Position.toChars (p : Position) : List Char :=
  [Char.ofNat ('a'.toNat + p.file), Char.ofNat ('0'.toNat + (8 - p.rank))]

/-- One placement row of `to_fen`: returns the serialized row and the pending
skip count (which `to_fen` flushes only for ranks other than the last). -/
def rowChars : List (Option Piece) → Nat → List Char × Nat
  | [], skip => ([], skip)
  | cell :: rest, skip =>
    match cell with
    | some pc =>
      let pre := (if skip ≠ 0 then natChars skip else []) ++ [pc.name]
      let (tail, sk) := rowChars rest 0
      (pre ++ tail, sk)
    | none => rowChars rest (skip + 1)

/-- `Board::to_fen` (`board/fen.rs`), including its quirk of not flushing a
trailing skip count on the final rank. -/
def Board.toFen (b : Board) : List Char :=
  let placement := (List.range 8).flatMap fun r =>
    let (chars, skip) := rowChars (b.tiles.getD r []) 0
    if r ≠ 7 then chars ++ (if skip ≠ 0 then natChars skip else []) ++ ['/']
    else chars
  let ntm : List Char := match b.next_to_move with | .White => ['w'] | .Black => ['b']
  let noCastle : Bool :=
    ¬b.can_castle_white_kingside ∧ ¬b.can_castle_white_queenside ∧
      ¬b.can_castle_black_kingside ∧ ¬b.can_castle_black_queenside
  let castling : List Char :=
    (if noCastle then ['-'] else []) ++
      (if b.can_castle_white_kingside then ['K'] else []) ++
      (if b.can_castle_white_queenside then ['Q'] else []) ++
      (if b.can_castle_black_kingside then ['k'] else []) ++
      (if b.can_castle_black_queenside then ['q'] else [])
  let ep : List Char := match b.en_passant_square with
    | some p => p.toChars
    | none => ['-']
  placement ++ [' '] ++ ntm ++ [' '] ++ castling ++ [' '] ++ ep ++ [' '] ++
    natChars b.halfmove_counter ++ [' '] ++ natChars b.move_number

/-! ## Concrete boards used by the theorems -/

/-- Parse a FEN, with an unreachable fallback mirroring `unwrap` on the
always-valid literals below (`Board::default` does the same). -/
def parseBoard (s : List Char) : Board :=
  match Board.fromFen s with
  | some (.ok b) => b
  | _ => ⟨[], .White, false, false, false, false, none, 0, 0⟩

/-- The FEN of the standard starting position (`Board::default`). -/
def startFen : List Char :=
  "rnbqkbnr/pppppppp/8/8/8/8/PPPPPPPP/RNBQKBNR w KQkq - 0 1".toList

/-- `Board::default`: the standard starting position. -/
def defaultBoard : Board := parseBoard startFen

/-- White: Ka5, Pe5; Black: Kh8, pd5, Qh5; White to move with the en-passant
target on d6 (internally `⟨3, 2⟩`; the FEN field reads `d3` because
`from_fen` goes through the stale `Position::from_str`, whose rank mapping
differs from the serializer's — see the C7 analysis). -/
def c2Board : Board := parseBoard "7k/8/8/K2pP2q/8/8/8/8 w - d3 0 1".toList

/-- White: Ke1, Ra1, Nb1; Black: Ke8; White may castle queenside.  The
knight-square b1 (internally `⟨1, 7⟩`) is occupied. -/
def c3Board : Board := parseBoard "4k3/8/8/8/8/8/8/RN2K3 w Q - 0 1".toList

/-- White: Ka1; Black: Kc8 — the black king on `⟨2, 0⟩` is adjacent to the
target square `⟨1, 0⟩`. -/
def c4Board : Board := parseBoard "2k5/8/8/8/8/8/8/K7 w - - 0 1".toList

/-- White: Ke1, Pa7 about to promote; Black: Kh8. -/
def c5Board : Board := parseBoard "7k/P7/8/8/8/8/8/4K3 w - - 0 1".toList

/-- The board after White plays Ka1–a2 on `c4Board` (used to witness C1). -/
def c1AfterBoard : Board :=
  match makeMove c4Board ⟨⟨0, 7⟩, ⟨0, 6⟩, none⟩ with
  | some (_, b) => b
  | none => c4Board

/-- A FEN whose en-passant field is `e3`, as produced after `e2e4`. -/
def c7FenIn : List Char :=
  "rnbqkbnr/pppppppp/8/8/4P3/8/PPPP1PPP/RNBQKBNR b KQkq e3 0 1".toList

/-- The same position but with the en-passant field reading `e6`. -/
def c7FenMid : List Char :=
  "rnbqkbnr/pppppppp/8/8/4P3/8/PPPP1PPP/RNBQKBNR b KQkq e6 0 1".toList

/-- A placement with two kings of each color. -/
def c8DupFen : List Char := "kk6/8/8/8/8/8/8/KK6 w - - 0 1".toList

/-- The number of kings of color `c` on the board. -/
def kingCount (b : Board) (c : Color) : Nat :=
  (allPositions.filter fun p => b.get p = some ⟨c, .King⟩).length

/-- Some piece of the side to move has at least one generated destination —
the spec-side reading of the `has_moves` scan. -/
def existsLegalDest (b : Board) : Prop :=
  ∃ p ∈ allPositions, ∃ pc, b.get p = some pc ∧ pc.color = b.next_to_move ∧
    ∃ l, pieceMoves b pc p = some l ∧ l ≠ []

/-- Lookup in a bare tile grid (the formula of `Board.get`). -/
def gridGet (g : List (List (Option Piece))) (p : Position) : Option Piece :=
  (g.getD p.rank []).getD p.file none

/-- The invariant maintained by the placement loop of `from_fen`: an 8×8
grid; each found-flag witnesses a king of that color on the grid; and every
occupied cell lies strictly before the write cursor in row-major order (so
later writes never overwrite a placed piece). -/
def placeInv (st : PlacementSt) : Prop :=
  st.tiles.length = 8 ∧ (∀ row ∈ st.tiles, row.length = 8) ∧
    (st.foundW = true →
      ∃ p ∈ allPositions, gridGet st.tiles p = some ⟨.White, .King⟩) ∧
    (st.foundB = true →
      ∃ p ∈ allPositions, gridGet st.tiles p = some ⟨.Black, .King⟩) ∧
    (∀ p ∈ allPositions, (gridGet st.tiles p).isSome →
      p.rank < st.rank ∨ (p.rank = st.rank ∧ p.file < st.file))

instance (st : PlacementSt) : Decidable (placeInv st) := by
  unfold placeInv; infer_instance

/-- A board around a bare tile grid, to transport the `setTile` lemmas to the
placement grid of `from_fen` (whose write formula is that of `setTile`). -/
def mkBoard (g : List (List (Option Piece))) : Board :=
  ⟨g, .White, false, false, false, false, none, 0, 0⟩

end Chess

deriving instance DecidableEq for Except

namespace Chess

/-! ## Helper lemmas -/

/-- Membership in the square enumeration is exactly coordinate validity. -/
theorem mem_allPositions (p : Position) : p ∈ allPositions ↔ p.file < 8 ∧ p.rank < 8 := by
  unfold allPositions
  constructor
  · intro h
    simp only [List.mem_flatMap, List.mem_map, List.mem_range] at h
    obtain ⟨r, hr, f, hf, rfl⟩ := h
    exact ⟨hf, hr⟩
  · rintro ⟨h1, h2⟩
    simp only [List.mem_flatMap, List.mem_map, List.mem_range]
    exact ⟨p.rank, h2, p.file, h1, rfl⟩

/-! ## Claim C10 -/

/-- **C10**: `Position::from_str` panics (modelled as `none`) on any
one-character string whose character is a valid file letter: the length guard
only rejects strings longer than 2, and byte 1 is then indexed
unconditionally. -/
theorem c10_fromStr_panics_on_file_letter (c : Char) (h1 : 'a' ≤ c) (h2 : c ≤ 'h') :
    Position.fromStr [c] = none := by
  unfold Position.fromStr
  simp [h1, h2]

/-- Witness for C10 at the claim's example input `"a"`. -/
theorem c10_witness : ('a' ≤ 'a' ∧ 'a' ≤ 'h') ∧ Position.fromStr ['a'] = none :=
  ⟨by decide, c10_fromStr_panics_on_file_letter 'a' (by decide) (by decide)⟩

/-- `other` is an involution. -/
theorem Color.other_other (c : Color) : c.other.other = c := by
  cases c <;> rfl

/-- Writing a tile does not change the side to move. -/
theorem setTile_next (b : Board) (p : Position) (v : Option Piece) :
    (b.setTile p v).next_to_move = b.next_to_move := rfl

/-- Clearing a kingside right does not change the side to move. -/
theorem cannotCK_next (b : Board) (c : Color) :
    (b.cannotCastleKingside c).next_to_move = b.next_to_move := by
  cases c <;> rfl

/-- Clearing a queenside right does not change the side to move. -/
theorem cannotCQ_next (b : Board) (c : Color) :
    (b.cannotCastleQueenside c).next_to_move = b.next_to_move := by
  cases c <;> rfl

/-- A successful promotion step does not change the side to move. -/
theorem promStep_next {b1 b2 : Board} {c : Color} {pc : Piece} {m : Move}
    (h : promStep b1 c pc m = .ok b2) : b2.next_to_move = b1.next_to_move := by
  unfold promStep at h
  split at h
  · split at h
    · cases h
    · cases h
    · cases h
    · cases h
      rfl
  · cases h
    rfl


/-- The castling side effect does not change the side to move. -/
theorem castleStep_next (b : Board) (pc : Piece) (m : Move) :
    (castleStep b pc m).next_to_move = b.next_to_move := by
  unfold castleStep
  simp only []
  split <;> rfl

/-- Castling-rights invalidation does not change the side to move. -/
theorem markStep_next (b : Board) (c : Color) (pc : Piece) (m : Move) :
    (markStep b c pc m).next_to_move = b.next_to_move := by
  unfold markStep
  simp only []
  repeat' split
  all_goals simp only [cannotCK_next, cannotCQ_next]

/-- The en-passant capture step does not change the side to move. -/
theorem epCaptureStep_next (b : Board) (c : Color) (pc : Piece) (m : Move)
    (cap : Option Piece) :
    (epCaptureStep b c pc m cap).1.next_to_move = b.next_to_move := by
  unfold epCaptureStep
  simp only []
  split <;> rfl

/-- The en-passant marking step does not change the side to move. -/
theorem epMarkStep_next (b : Board) (c : Color) (pc : Piece) (m : Move) :
    (epMarkStep b c pc m).next_to_move = b.next_to_move := by
  unfold epMarkStep
  simp only []
  split <;> rfl

/-- Switching flips the side to move. -/
theorem switchNextToMove_next (b : Board) :
    b.switchNextToMove.next_to_move = b.next_to_move.other := by
  unfold Board.switchNextToMove
  simp only []
  split <;> rfl

/-- A `some true` scan exhibits a piece of the side to move with a nonempty
generated move list. -/
theorem scanGo_true (b : Board) (l : List Position) (h : scanGo b l = some true) :
    ∃ p ∈ l, ∃ pc, b.get p = some pc ∧ pc.color = b.next_to_move ∧
      ∃ x xs, pieceMoves b pc p = some (x :: xs) := by
  induction l with
  | nil => simp [scanGo] at h
  | cons q rest ih =>
    unfold scanGo at h
    rcases hg : b.get q with _ | pc <;> rw [hg] at h <;> simp only [] at h
    · obtain ⟨p, hp, r⟩ := ih h
      exact ⟨p, List.mem_cons_of_mem _ hp, r⟩
    · split at h
      case isTrue hcol =>
        rcases hm : pieceMoves b pc q with _ | l' <;> rw [hm] at h
        · cases h
        · rcases l' with _ | ⟨x, xs⟩
          · obtain ⟨p, hp, r⟩ := ih h
            exact ⟨p, List.mem_cons_of_mem _ hp, r⟩
          · exact ⟨q, List.mem_cons_self q rest, pc, hg, hcol, x, xs, hm⟩
      case isFalse =>
        obtain ⟨p, hp, r⟩ := ih h
        exact ⟨p, List.mem_cons_of_mem _ hp, r⟩

/-- A `some false` scan means every piece of the side to move generated an
empty move list. -/
theorem scanGo_false (b : Board) (l : List Position) (h : scanGo b l = some false) :
    ∀ p ∈ l, ∀ pc, b.get p = some pc → pc.color = b.next_to_move →
      pieceMoves b pc p = some [] := by
  induction l with
  | nil =>
    intro p hp
    cases hp
  | cons q rest ih =>
    unfold scanGo at h
    intro p hp pc hpc hcol
    rcases List.mem_cons.mp hp with rfl | hp'
    · rw [hpc] at h
      simp only [] at h
      rw [if_pos hcol] at h
      rcases hm : pieceMoves b pc p with _ | l' <;> rw [hm] at h
      · cases h
      · rcases l' with _ | ⟨x, xs⟩
        · rfl
        · cases h
    · rcases hgq : b.get q with _ | qc <;> rw [hgq] at h <;> simp only [] at h
      · exact ih h p hp' pc hpc hcol
      · split at h
        · rcases hm : pieceMoves b qc q with _ | l' <;> rw [hm] at h
          · cases h
          · rcases l' with _ | _
            · exact ih h p hp' pc hpc hcol
            · cases h
        · exact ih h p hp' pc hpc hcol

/-- Structural decomposition of a successful `makeMoveUnchecked`: the piece
that moved, the board after promotion handling, the board and capture after
the en-passant step, the shape of the final board, and the classification
equation. -/
theorem makeMoveUnchecked_decomp {b : Board} {m : Move} {st : BoardState}
    {b' : Board} (h : makeMoveUnchecked b m = some (.ok st, b')) :
    ∃ piece b2 b4 cap,
      b.get m.from_ = some piece ∧
        promStep ((b.setTile m.from_ none).setTile m.to_ (some piece))
            b.next_to_move piece m = .ok b2 ∧
        epCaptureStep (markStep (castleStep b2 piece m) b.next_to_move piece m)
            b.next_to_move piece m (b.get m.to_) = (b4, cap) ∧
        b' =
          (if cap.isSome ∨ piece.kind = Kind.Pawn then
            { (epMarkStep b4 b.next_to_move piece m).switchNextToMove with
                halfmove_counter := 0 }
          else (epMarkStep b4 b.next_to_move piece m).switchNextToMove) ∧
        classifyStep b' = some st := by
  unfold makeMoveUnchecked at h
  rcases hg : b.get m.from_ with _ | piece <;> rw [hg] at h <;> simp only [] at h
  · cases h
  · split at h
    case h_1 e hprom => simp at h
    case h_2 b2 hprom =>
      rcases hE : epCaptureStep (markStep (castleStep b2 piece m) b.next_to_move
          piece m) b.next_to_move piece m (b.get m.to_) with ⟨b4, cap⟩
      rw [hE] at h
      simp only [] at h
      rw [Option.map_eq_some'] at h
      obtain ⟨st0, hcl, heq⟩ := h
      injection heq with h1 h2
      injection h1 with h1
      subst h1
      subst h2
      exact ⟨piece, b2, b4, cap, rfl, hprom, hE, rfl, hcl⟩

/-- After a successful `makeMoveUnchecked` the side to move has flipped. -/
theorem makeMoveUnchecked_next_flip {b : Board} {m : Move} {st : BoardState}
    {b' : Board} (h : makeMoveUnchecked b m = some (.ok st, b')) :
    b'.next_to_move = b.next_to_move.other := by
  obtain ⟨piece, b2, b4, cap, hg, hprom, hE, hb, _⟩ := makeMoveUnchecked_decomp h
  have hb4 : b4.next_to_move = b.next_to_move := by
    have h4 : b4 = (epCaptureStep (markStep (castleStep b2 piece m)
        b.next_to_move piece m) b.next_to_move piece m (b.get m.to_)).1 := by
      rw [hE]
    rw [h4, epCaptureStep_next, markStep_next, castleStep_next,
      promStep_next hprom, setTile_next, setTile_next]
  subst hb
  split
  · show (epMarkStep b4 b.next_to_move piece m).switchNextToMove.next_to_move =
      b.next_to_move.other
    rw [switchNextToMove_next, epMarkStep_next, hb4]
  · rw [switchNextToMove_next, epMarkStep_next, hb4]

/-- What a successful classification step says about the returned state. -/
theorem classify_spec (bb : Board) (st : BoardState)
    (hcl : classifyStep bb = some st) :
    (existsLegalDest bb →
        st = if bb.halfmove_counter = 50 then .Draw else .Normal) ∧
      (¬existsLegalDest bb →
        ∃ kp, bb.getKingPos bb.next_to_move = some kp ∧
          st = if threatenedAt kp [] [] bb.next_to_move bb then
            .Checkmate bb.next_to_move.other else .Draw) := by
  unfold classifyStep at hcl
  split at hcl
  case h_1 => cases hcl
  case h_2 hs =>
    constructor
    · intro _
      split at hcl
      case isTrue hcond =>
        rw [if_pos hcond]
        injection hcl with h
        exact h.symm
      case isFalse hcond =>
        rw [if_neg hcond]
        injection hcl with h
        exact h.symm
    · intro hnex
      exfalso
      have hall : scanGo bb allPositions = some true := hs
      obtain ⟨p, hp, pc, hpc, hcol, x, xs, hm⟩ := scanGo_true bb allPositions hall
      exact hnex ⟨p, hp, pc, hpc, hcol, x :: xs, hm, by simp⟩
  case h_3 hs =>
    constructor
    · intro hex
      obtain ⟨p, hp, pc, hpc, hcol, l, hm, hne⟩ := hex
      have hall : scanGo bb allPositions = some false := hs
      have hz := scanGo_false bb allPositions hall p hp pc hpc hcol
      rw [hz] at hm
      injection hm with hm
      exact absurd hm.symm hne
    · intro _
      split at hcl
      case h_1 => cases hcl
      case h_2 kp hk =>
        refine ⟨kp, hk, ?_⟩
        split at hcl
        case isTrue hcond =>
          rw [if_pos hcond]
          injection hcl with h
          exact h.symm
        case isFalse hcond =>
          rw [if_neg hcond]
          injection hcl with h
          exact h.symm

/-! ## Tile-level lemmas -/

/-- On a well-formed grid, an occupied square is in bounds. -/
theorem get_some_bounds {b : Board} (hwf : b.WF) {p : Position} {v : Piece}
    (h : b.get p = some v) : p.file < 8 ∧ p.rank < 8 := by
  obtain ⟨hlen, hrows⟩ := hwf
  unfold Board.get at h
  have hr : p.rank < 8 := by
    by_contra hr
    have hnone : b.tiles[p.rank]? = none := List.getElem?_eq_none (by omega)
    rw [List.getD_eq_getElem?_getD b.tiles p.rank [], hnone] at h
    simp at h
  have hrow : (b.tiles.getD p.rank []).length = 8 := by
    rw [List.getD_eq_getElem b.tiles [] (by omega)]
    exact hrows _ (List.getElem_mem (by omega))
  have hf : p.file < 8 := by
    by_contra hf
    have hnone : (b.tiles.getD p.rank [])[p.file]? = none :=
      List.getElem?_eq_none (by omega)
    rw [List.getD_eq_getElem?_getD (b.tiles.getD p.rank []) p.file none,
      hnone] at h
    simp at h
  exact ⟨hf, hr⟩

/-- Writing a tile preserves well-formedness. -/
theorem WF_setTile {b : Board} (hwf : b.WF) (q : Position) (v : Option Piece) :
    (b.setTile q v).WF := by
  obtain ⟨hlen, hrows⟩ := hwf
  rcases Nat.lt_or_ge q.rank 8 with hr | hr
  · refine ⟨by simp [Board.setTile, hlen], ?_⟩
    intro row hrow
    rcases List.mem_or_eq_of_mem_set hrow with h | h
    · exact hrows _ h
    · subst h
      rw [List.length_set, List.getD_eq_getElem b.tiles [] (by omega)]
      exact hrows _ (List.getElem_mem (by omega))
  · have hset : b.tiles.set q.rank
        ((b.tiles.getD q.rank []).set q.file v) = b.tiles :=
      List.set_eq_of_length_le (by omega)
    refine ⟨?_, ?_⟩
    · show (b.tiles.set q.rank _).length = 8
      rw [hset, hlen]
    · show ∀ row ∈ b.tiles.set q.rank _, row.length = 8
      rw [hset]
      exact hrows

/-- Reading a different square after a write sees the old value. -/
theorem get_setTile_ne (b : Board) (q : Position) (v : Option Piece)
    (p : Position) (hne : p.rank ≠ q.rank ∨ p.file ≠ q.file) :
    (b.setTile q v).get p = b.get p := by
  unfold Board.setTile Board.get
  simp only [List.getD_eq_getElem?_getD, List.getElem?_set]
  rcases hne with h | h
  · rw [if_neg (fun hh => h hh.symm)]
  · rcases eq_or_ne q.rank p.rank with hr | hr
    · rw [if_pos hr]
      split
      case isTrue hlt =>
        simp only [Option.getD_some]
        rw [List.getElem?_set, if_neg (fun hh => h hh.symm), hr]
      case isFalse hlt =>
        simp only [Option.getD_none]
        have hnone : b.tiles[p.rank]? = none :=
          List.getElem?_eq_none (by omega)
        rw [hnone]
        simp
    · rw [if_neg hr]

/-- Reading the written square sees the new value (in bounds, well-formed). -/
theorem get_setTile_self {b : Board} (hwf : b.WF) {q : Position}
    (hqf : q.file < 8) (hqr : q.rank < 8) (v : Option Piece) :
    (b.setTile q v).get q = v := by
  obtain ⟨hlen, hrows⟩ := hwf
  have hrow : (b.tiles.getD q.rank []).length = 8 := by
    rw [List.getD_eq_getElem b.tiles [] (by omega)]
    exact hrows _ (List.getElem_mem (by omega))
  unfold Board.setTile Board.get
  have hlt : q.rank < b.tiles.length := by omega
  have hlt2 : q.file < (b.tiles[q.rank]?.getD []).length := by
    rw [← List.getD_eq_getElem?_getD]
    omega
  simp only [List.getD_eq_getElem?_getD, List.getElem?_set, if_pos rfl,
    if_true, if_pos hlt, if_pos hlt2, Option.getD_some]

/-- Clearing a kingside right does not change the tiles. -/
theorem cannotCK_get (b : Board) (c : Color) (p : Position) :
    (b.cannotCastleKingside c).get p = b.get p := by
  cases c <;> rfl

/-- Clearing a queenside right does not change the tiles. -/
theorem cannotCQ_get (b : Board) (c : Color) (p : Position) :
    (b.cannotCastleQueenside c).get p = b.get p := by
  cases c <;> rfl

/-- Castling-rights invalidation does not change the tiles. -/
theorem markStep_get (b : Board) (c : Color) (pc : Piece) (m : Move)
    (p : Position) : (markStep b c pc m).get p = b.get p := by
  unfold markStep
  simp only []
  repeat' split
  all_goals simp only [cannotCK_get, cannotCQ_get]

/-- En-passant marking does not change the tiles. -/
theorem epMarkStep_get (b : Board) (c : Color) (pc : Piece) (m : Move)
    (p : Position) : (epMarkStep b c pc m).get p = b.get p := by
  unfold epMarkStep
  simp only []
  split <;> rfl

/-- Switching the side to move does not change the tiles. -/
theorem switch_get (b : Board) (p : Position) :
    b.switchNextToMove.get p = b.get p := by
  unfold Board.switchNextToMove
  simp only []
  split <;> rfl

/-- Characterization of validated construction. -/
theorem newI8_eq_some {x y : Int} {p : Position} :
    Position.newI8 x y = some p ↔
      (p.file : Int) = x ∧ (p.rank : Int) = y ∧ 0 ≤ x ∧ x ≤ 7 ∧ 0 ≤ y ∧ y ≤ 7 := by
  rcases p with ⟨pf, pr⟩
  unfold Position.newI8
  split
  case isTrue h =>
    simp only [Option.some_inj, Position.mk.injEq]
    constructor
    · rintro ⟨h1, h2⟩
      refine ⟨?_, ?_, ?_, ?_, ?_, ?_⟩ <;> omega
    · rintro ⟨h1, h2, _⟩
      constructor <;> omega
  case isFalse h =>
    refine iff_of_false (by simp) ?_
    rintro ⟨h1, h2, h3, h4, h5, h6⟩
    exact h ⟨h3, h4, h5, h6⟩

/-- An emitted king candidate sits exactly one delta away from the origin. -/
theorem kingCandidate_coords {b : Board} {c : Color} {f : Position} {dx dy : Int}
    {p : Position} (h : kingCandidate b c f (dx, dy) = some p) :
    (p.file : Int) = (f.file : Int) + dx ∧ (p.rank : Int) = (f.rank : Int) + dy := by
  simp only [kingCandidate] at h
  split at h
  next => cases h
  next pos hnew =>
    have hc := newI8_eq_some.mp hnew
    have hp : p = pos := by
      split at h
      · cases h
      · split at h
        · cases h
        · split at h <;> split at h <;> cases h <;> rfl
    subst hp
    exact ⟨hc.1, hc.2.1⟩

/-- Membership in the king generator's output is existence of an emitting
delta. -/
theorem mem_kingMovesList {b : Board} {c : Color} {f p : Position} :
    p ∈ kingMovesList b c f ↔ ∃ d ∈ kingDeltas, kingCandidate b c f d = some p := by
  unfold kingMovesList
  exact List.mem_filterMap

/-- The queenside castling candidate of the king generator, characterized. -/
theorem kingCandidate_queenside (b : Board) (c : Color) (f : Position)
    (h2 : 2 ≤ f.file) (h7 : f.file ≤ 7) (hr : f.rank ≤ 7) :
    kingCandidate b c f (-2, 0) = some ⟨f.file - 2, f.rank⟩ ↔
      (b.canCastleQueenside c = true ∧
        threatenedAt f [f] [] c b = false ∧
        b.get ⟨f.file - 1, f.rank⟩ = none ∧
        threatenedAt ⟨f.file - 1, f.rank⟩ [f] [] c b = false ∧
        (∀ pc, b.get ⟨f.file - 2, f.rank⟩ = some pc → pc.color ≠ c) ∧
        threatenedAt ⟨f.file - 2, f.rank⟩ [f] [] c b = false) := by
  have hnew : Position.newI8 ((f.file : Int) + (-2)) ((f.rank : Int) + 0) =
      some ⟨f.file - 2, f.rank⟩ := by
    rw [newI8_eq_some]
    refine ⟨?_, ?_, ?_, ?_, ?_, ?_⟩ <;> (try simp only []) <;> omega
  simp only [kingCandidate, hnew]
  cases hq : b.canCastleQueenside c <;>
    cases h1 : threatenedAt f [f] [] c b <;>
    rcases hib : b.get ⟨f.file - 1, f.rank⟩ with _ | ibpc <;>
    cases h3 : threatenedAt ⟨f.file - 1, f.rank⟩ [f] [] c b <;>
    cases h4 : threatenedAt ⟨f.file - 2, f.rank⟩ [f] [] c b <;>
    rcases hg : b.get ⟨f.file - 2, f.rank⟩ with _ | pc <;>
    (try by_cases hcc : pc.color = c) <;>
    simp_all

/-- The kingside castling candidate of the king generator, characterized. -/
theorem kingCandidate_kingside (b : Board) (c : Color) (f : Position)
    (h7 : f.file + 2 ≤ 7) (hr : f.rank ≤ 7) :
    kingCandidate b c f (2, 0) = some ⟨f.file + 2, f.rank⟩ ↔
      (b.canCastleKingside c = true ∧
        threatenedAt f [f] [] c b = false ∧
        b.get ⟨f.file + 1, f.rank⟩ = none ∧
        threatenedAt ⟨f.file + 1, f.rank⟩ [f] [] c b = false ∧
        (∀ pc, b.get ⟨f.file + 2, f.rank⟩ = some pc → pc.color ≠ c) ∧
        threatenedAt ⟨f.file + 2, f.rank⟩ [f] [] c b = false) := by
  have hnew : Position.newI8 ((f.file : Int) + 2) ((f.rank : Int) + 0) =
      some ⟨f.file + 2, f.rank⟩ := by
    rw [newI8_eq_some]
    refine ⟨?_, ?_, ?_, ?_, ?_, ?_⟩ <;> (try simp only []) <;> omega
  simp only [kingCandidate, hnew]
  cases hq : b.canCastleKingside c <;>
    cases h1 : threatenedAt f [f] [] c b <;>
    rcases hib : b.get ⟨f.file + 1, f.rank⟩ with _ | ibpc <;>
    cases h3 : threatenedAt ⟨f.file + 1, f.rank⟩ [f] [] c b <;>
    cases h4 : threatenedAt ⟨f.file + 2, f.rank⟩ [f] [] c b <;>
    rcases hg : b.get ⟨f.file + 2, f.rank⟩ with _ | pc <;>
    (try by_cases hcc : pc.color = c) <;>
    simp_all

/-! ## Generator soundness: emitted squares are in bounds and never hold an
own-colored piece -/

/-- Soundness of one king candidate. -/
theorem kingCandidate_sound {b : Board} {c : Color} {f : Position} {dx dy : Int}
    {p : Position} (h : kingCandidate b c f (dx, dy) = some p) :
    (p.file < 8 ∧ p.rank < 8) ∧ ∀ q, b.get p = some q → q.color ≠ c := by
  simp only [kingCandidate] at h
  split at h
  next => cases h
  next pos hnew =>
    have hc := newI8_eq_some.mp hnew
    split at h
    · cases h
    · split at h
      · cases h
      · split at h
        next hg =>
          split at h
          · cases h
          · injection h with h
            subst h
            refine ⟨⟨by omega, by omega⟩, fun q hq => ?_⟩
            rw [hg] at hq
            cases hq
        next pc2 hg =>
          split at h
          case isTrue hcnd =>
            injection h with h
            subst h
            refine ⟨⟨by omega, by omega⟩, fun q hq => ?_⟩
            rw [hg] at hq
            injection hq with hq
            subst hq
            exact hcnd.1
          case isFalse => cases h

/-- Soundness of the raw knight candidates. -/
theorem knightRaw_sound {b : Board} {c : Color} {f : Position} {p : Position}
    (hp : p ∈ knightRaw b c f) :
    (p.file < 8 ∧ p.rank < 8) ∧ ∀ q, b.get p = some q → q.color ≠ c := by
  unfold knightRaw at hp
  rw [List.mem_filterMap] at hp
  obtain ⟨d, hd, h⟩ := hp
  split at h
  next => cases h
  next pos hnew =>
    have hc := newI8_eq_some.mp hnew
    split at h
    next hg =>
      injection h with h
      subst h
      refine ⟨⟨by omega, by omega⟩, fun q hq => ?_⟩
      rw [hg] at hq
      cases hq
    next pc hg =>
      split at h
      case isTrue hne =>
        injection h with h
        subst h
        refine ⟨⟨by omega, by omega⟩, fun q hq => ?_⟩
        rw [hg] at hq
        injection hq with hq
        subst hq
        exact hne
      case isFalse => cases h

/-- Soundness of one sliding ray. -/
theorem slideRay_sound (b : Board) (c : Color) (d : Int × Int) :
    ∀ (n : Nat) (cur p : Position), p ∈ slideRay b c d n cur →
      (p.file < 8 ∧ p.rank < 8) ∧ ∀ q, b.get p = some q → q.color ≠ c := by
  intro n
  induction n with
  | zero =>
    intro cur p hp
    cases hp
  | succ n ih =>
    intro cur p hp
    unfold slideRay at hp
    split at hp
    next => cases hp
    next nxt hnew =>
      have hc := newI8_eq_some.mp hnew
      split at hp
      next hg =>
        rcases List.mem_cons.mp hp with rfl | hp2
        · refine ⟨⟨by omega, by omega⟩, fun q hq => ?_⟩
          rw [hg] at hq
          cases hq
        · exact ih nxt p hp2
      next pc hg =>
        split at hp
        case isTrue hne =>
          rw [List.mem_singleton] at hp
          subst hp
          refine ⟨⟨by omega, by omega⟩, fun q hq => ?_⟩
          rw [hg] at hq
          injection hq with hq
          subst hq
          exact hne
        case isFalse => cases hp

/-- Soundness of the raw sliding candidates. -/
theorem slidingRaw_sound {b : Board} {c : Color} {dirs : List (Int × Int)}
    {f : Position} {p : Position} (hp : p ∈ slidingRaw b c dirs f) :
    (p.file < 8 ∧ p.rank < 8) ∧ ∀ q, b.get p = some q → q.color ≠ c := by
  unfold slidingRaw at hp
  rw [List.mem_flatMap] at hp
  obtain ⟨d, _, h⟩ := hp
  exact slideRay_sound b c d 8 f p h

/-- Soundness of the raw pawn candidates. -/
theorem pawnRaw_sound {b : Board} {c : Color} {f : Position} {p : Position}
    (hp : p ∈ pawnRaw b c f) :
    (p.file < 8 ∧ p.rank < 8) ∧ ∀ q, b.get p = some q → q.color ≠ c := by
  unfold pawnRaw at hp
  simp only [List.mem_append] at hp
  rcases hp with ((h | h) | h) | h
  · split at h
    next p1 hnew =>
      split at h
      case isTrue hg =>
        rw [List.mem_singleton] at h
        subst h
        have hc := newI8_eq_some.mp hnew
        refine ⟨⟨by omega, by omega⟩, fun q hq => ?_⟩
        rw [hg] at hq
        cases hq
      case isFalse => cases h
    next => cases h
  · split at h
    next p1 p2 hnew1 hnew2 =>
      split at h
      case isTrue hcnd =>
        rw [List.mem_singleton] at h
        subst h
        have hc := newI8_eq_some.mp hnew2
        refine ⟨⟨by omega, by omega⟩, fun q hq => ?_⟩
        rw [hcnd.2.2] at hq
        cases hq
      case isFalse => cases h
    next => cases h
  · split at h
    next p1 hnew =>
      have hc := newI8_eq_some.mp hnew
      split at h
      next pc hg =>
        split at h
        case isTrue hne =>
          rw [List.mem_singleton] at h
          subst h
          refine ⟨⟨by omega, by omega⟩, fun q hq => ?_⟩
          rw [hg] at hq
          injection hq with hq
          subst hq
          exact hne
        case isFalse => cases h
      next hg =>
        split at h
        case isTrue =>
          rw [List.mem_singleton] at h
          subst h
          refine ⟨⟨by omega, by omega⟩, fun q hq => ?_⟩
          rw [hg] at hq
          cases hq
        case isFalse => cases h
    next => cases h
  · split at h
    next p1 hnew =>
      have hc := newI8_eq_some.mp hnew
      split at h
      next pc hg =>
        split at h
        case isTrue hne =>
          rw [List.mem_singleton] at h
          subst h
          refine ⟨⟨by omega, by omega⟩, fun q hq => ?_⟩
          rw [hg] at hq
          injection hq with hq
          subst hq
          exact hne
        case isFalse => cases h
      next hg =>
        split at h
        case isTrue =>
          rw [List.mem_singleton] at h
          subst h
          refine ⟨⟨by omega, by omega⟩, fun q hq => ?_⟩
          rw [hg] at hq
          cases hq
        case isFalse => cases h
    next => cases h

/-- The legality filter only selects raw candidates. -/
theorem legalFilter_subset {b : Board} {c : Color} {f : Position}
    {raw l : List Position} (h : legalFilter b c f raw = some l)
    {p : Position} (hp : p ∈ l) : p ∈ raw := by
  unfold legalFilter at h
  split at h
  next =>
    injection h with h
    subst h
    cases hp
  next =>
    rw [Option.map_eq_some'] at h
    obtain ⟨kp, _, hl⟩ := h
    subst hl
    exact List.mem_of_mem_filter hp

/-- Every generated destination is in bounds and does not hold a piece of
the mover's color. -/
theorem pieceMoves_sound {b : Board} {pc : Piece} {f : Position}
    {l : List Position} (h : pieceMoves b pc f = some l) {p : Position}
    (hp : p ∈ l) :
    (p.file < 8 ∧ p.rank < 8) ∧ ∀ q, b.get p = some q → q.color ≠ pc.color := by
  rcases pc with ⟨c, k⟩
  cases k <;> simp only [pieceMoves] at h
  case King =>
    injection h with h
    subst h
    obtain ⟨⟨dx, dy⟩, _, hcand⟩ := mem_kingMovesList.mp hp
    exact kingCandidate_sound hcand
  case Pawn => exact pawnRaw_sound (legalFilter_subset h hp)
  case Knight => exact knightRaw_sound (legalFilter_subset h hp)
  case Rook => exact slidingRaw_sound (legalFilter_subset h hp)
  case Bishop => exact slidingRaw_sound (legalFilter_subset h hp)
  case Queen => exact slidingRaw_sound (legalFilter_subset h hp)

/-! ## King-scan and step-characterization lemmas -/

/-- Distinct positions differ in a coordinate. -/
theorem Position.ne_coords {p q : Position} (h : p ≠ q) :
    p.rank ≠ q.rank ∨ p.file ≠ q.file := by
  by_contra hc
  push_neg at hc
  refine h ?_
  cases p
  cases q
  simp_all

/-- Without a king of color `c`, the king scan runs off the board (`none`). -/
theorem getKingPos_eq_none {b : Board} {c : Color} (h : ¬b.hasKing c) :
    b.getKingPos c = none := by
  unfold Board.getKingPos
  rw [List.find?_eq_none]
  intro q hq
  simp only [decide_eq_true_eq]
  exact fun habs => h ⟨q, hq, habs⟩

/-- With a king of color `c` on the board, the king scan succeeds. -/
theorem getKingPos_isSome {b : Board} {c : Color} (h : b.hasKing c) :
    ∃ kp, b.getKingPos c = some kp := by
  obtain ⟨p, hp, hk⟩ := h
  have hs : (b.getKingPos c).isSome := by
    unfold Board.getKingPos
    rw [List.find?_isSome]
    exact ⟨p, hp, by simp [hk]⟩
  exact Option.isSome_iff_exists.mp hs

/-- If the side to move has no king, the classification step panics. -/
theorem classify_none_of_no_king {bb : Board}
    (hnk : ¬bb.hasKing bb.next_to_move) : classifyStep bb = none := by
  have hscan : ∀ fl, scanHasMoves bb = some fl → fl = false := by
    intro fl hs
    cases fl
    · rfl
    · exfalso
      obtain ⟨p, hp, pc, hpc, hcol, x, xs, hm⟩ := scanGo_true bb allPositions hs
      rcases pc with ⟨pcc, pck⟩
      have hcc : pcc = bb.next_to_move := hcol
      cases pck
      case King => exact hnk ⟨p, hp, by rw [hpc, hcc]⟩
      all_goals
        simp only [pieceMoves] at hm
        unfold legalFilter at hm
        split at hm
        next =>
          injection hm with hm
          cases hm
        next =>
          rw [Option.map_eq_some'] at hm
          obtain ⟨kp, hk, _⟩ := hm
          rw [hcc, getKingPos_eq_none hnk] at hk
          cases hk
  unfold classifyStep
  rcases hs : scanHasMoves bb with _ | fl
  · rfl
  · have hfl := hscan fl hs
    subst hfl
    rw [getKingPos_eq_none hnk]

/-- A successful classification implies the side to move has a king. -/
theorem classify_some_hasKing {bb : Board} {st : BoardState}
    (h : classifyStep bb = some st) : bb.hasKing bb.next_to_move := by
  by_contra hnk
  rw [classify_none_of_no_king hnk] at h
  cases h

/-- A non-pawn piece skips promotion handling. -/
theorem promStep_nonpawn {b1 : Board} {c : Color} {pc : Piece} {m : Move}
    (h : pc.kind ≠ Kind.Pawn) : promStep b1 c pc m = .ok b1 := by
  unfold promStep
  rw [if_neg (fun hh => h hh.1)]

/-- What a successful promotion step did to the board. -/
theorem promStep_cases {b1 : Board} {c : Color} {pc : Piece} {m : Move}
    {b2 : Board} (h : promStep b1 c pc m = .ok b2) :
    b2 = b1 ∨ ∃ k, k ≠ Kind.King ∧ b2 = b1.setTile m.to_ (some ⟨c, k⟩) := by
  unfold promStep at h
  split at h
  · rcases hm : m.promotion with _ | k <;> rw [hm] at h
    · cases h
    · cases k
      case Pawn => cases h
      case King => cases h
      all_goals
        injection h with h
        subst h
        exact Or.inr ⟨_, by simp, rfl⟩
  · injection h with h
    subst h
    exact Or.inl rfl

/-- A non-king piece skips the castling side effect. -/
theorem castleStep_nonking {b : Board} {pc : Piece} {m : Move}
    (h : pc.kind ≠ Kind.King) : castleStep b pc m = b := by
  unfold castleStep
  simp only []
  rw [if_neg (fun hh => h hh.1)]

/-- The en-passant capture step fires only for a pawn on the en-passant
square. -/
theorem epCaptureStep_not {b : Board} {c : Color} {pc : Piece} {m : Move}
    {cap : Option Piece}
    (h : ¬(pc.kind = Kind.Pawn ∧ b.en_passant_square = some m.to_)) :
    epCaptureStep b c pc m cap = (b, cap) := by
  unfold epCaptureStep
  simp only []
  rw [if_neg h]

/-- The en-passant capture step, when it fires. -/
theorem epCaptureStep_fires {b : Board} {c : Color} {pc : Piece} {m : Move}
    {cap : Option Piece} (hk : pc.kind = Kind.Pawn)
    (hep : b.en_passant_square = some m.to_) :
    epCaptureStep b c pc m cap =
      (b.setTile ⟨m.to_.file, ((m.to_.rank : Int) + c.backwards).toNat⟩ none,
        b.get ⟨m.to_.file, ((m.to_.rank : Int) + c.backwards).toNat⟩) := by
  unfold epCaptureStep
  simp only []
  rw [if_pos ⟨hk, hep⟩]

/-- Writing a tile does not change the en-passant square. -/
theorem setTile_ep (b : Board) (p : Position) (v : Option Piece) :
    (b.setTile p v).en_passant_square = b.en_passant_square := rfl

/-- Clearing castling rights does not change the en-passant square. -/
theorem cannotCK_ep (b : Board) (c : Color) :
    (b.cannotCastleKingside c).en_passant_square = b.en_passant_square := by
  cases c <;> rfl

/-- Clearing castling rights does not change the en-passant square. -/
theorem cannotCQ_ep (b : Board) (c : Color) :
    (b.cannotCastleQueenside c).en_passant_square = b.en_passant_square := by
  cases c <;> rfl

/-- Castling-rights invalidation does not change the en-passant square. -/
theorem markStep_ep (b : Board) (c : Color) (pc : Piece) (m : Move) :
    (markStep b c pc m).en_passant_square = b.en_passant_square := by
  unfold markStep
  simp only []
  repeat' split
  all_goals simp only [cannotCK_ep, cannotCQ_ep]

/-- The castling side effect does not change the en-passant square. -/
theorem castleStep_ep (b : Board) (pc : Piece) (m : Move) :
    (castleStep b pc m).en_passant_square = b.en_passant_square := by
  unfold castleStep
  simp only []
  split <;> rfl

/-- The castling side effect never loses the piece standing on the move's
destination square: it survives on the destination or (when the rook corner
coincides with the destination) on the rook's destination square. -/
theorem castleStep_keeps_dest {b2 : Board} (hwf2 : b2.WF) {piece : Piece}
    {m : Move} (hT : b2.get m.to_ = some piece)
    (hTf : m.to_.file < 8) (hTr : m.to_.rank < 8)
    (hFf : m.from_.file < 8) :
    ∃ q, (q.file < 8 ∧ q.rank < 8) ∧ (castleStep b2 piece m).get q = some piece := by
  unfold castleStep
  simp only []
  split
  case isFalse => exact ⟨m.to_, ⟨hTf, hTr⟩, hT⟩
  case isTrue hcast =>
    have hcase : (m.to_.file : Int) - (m.from_.file : Int) = 2 ∨
        (m.to_.file : Int) - (m.from_.file : Int) = -2 := by
      have := hcast.2
      omega
    rcases hcase with hΔ | hΔ <;> rw [hΔ]
    · -- kingside: rook h-file to the king's left
      have hd2 : ((-2 : Int) / 2) = -1 := by decide
      rw [if_pos (by norm_num : (2 : Int) > 0)]
      simp only [hd2]
      have hT2 : 2 ≤ m.to_.file := by omega
      by_cases hrp : m.to_.file = 7
      · refine ⟨⟨((m.to_.file : Int) + -1).toNat, m.to_.rank⟩, ⟨by simp only []; omega, hTr⟩, ?_⟩
        rw [get_setTile_self (WF_setTile hwf2 _ _) (by simp only []; omega)
          (by simp only []; omega)]
        have hpos : (⟨7, m.to_.rank⟩ : Position) = m.to_ := by
          rw [← hrp]
        rw [hpos, hT]
      · refine ⟨m.to_, ⟨hTf, hTr⟩, ?_⟩
        have hne1 : m.to_.file ≠ ((m.to_.file : Int) + -1).toNat := by omega
        have hne2 : m.to_.file ≠ 7 := hrp
        rw [get_setTile_ne _ _ _ _ (Or.inr hne1),
          get_setTile_ne _ _ _ _ (Or.inr hne2)]
        exact hT
    · -- queenside: rook a-file to the king's right
      have hd2 : ((2 : Int) / 2) = 1 := by decide
      rw [if_neg (by norm_num : ¬((-2 : Int) > 0))]
      simp only [neg_neg, hd2]
      have hT5 : m.to_.file ≤ 5 := by omega
      by_cases hrp : m.to_.file = 0
      · refine ⟨⟨((m.to_.file : Int) + 1).toNat, m.to_.rank⟩, ⟨by simp only []; omega, hTr⟩, ?_⟩
        rw [get_setTile_self (WF_setTile hwf2 _ _) (by simp only []; omega)
          (by simp only []; omega)]
        have hpos : (⟨0, m.to_.rank⟩ : Position) = m.to_ := by
          rw [← hrp]
        rw [hpos, hT]
      · refine ⟨m.to_, ⟨hTf, hTr⟩, ?_⟩
        have hne1 : m.to_.file ≠ ((m.to_.file : Int) + 1).toNat := by omega
        have hne2 : m.to_.file ≠ 0 := hrp
        rw [get_setTile_ne _ _ _ _ (Or.inr hne1),
          get_setTile_ne _ _ _ _ (Or.inr hne2)]
        exact hT

/-- Resetting the halfmove counter does not change the tiles. -/
theorem reset_get (b : Board) (p : Position) :
    ({ b with halfmove_counter := 0 } : Board).get p = b.get p := rfl

/-- The placement loop of `from_fen` maintains the placement invariant. -/
theorem placeGo_inv (cs : List Char) :
    ∀ st : PlacementSt, placeInv st → ∀ res : PlacementSt,
      placeGo cs st = some (.ok res) → placeInv res := by
  induction cs with
  | nil =>
    intro st hinv res h
    simp only [placeGo] at h
    injection h with h
    injection h with h
    exact h ▸ hinv
  | cons ch rest ih =>
    intro st hinv res h
    obtain ⟨hlen, hrows, hfw, hfb, hcur⟩ := hinv
    simp only [placeGo] at h
    split at h
    · -- a rank separator
      refine ih { st with rank := st.rank + 1, file := 0 }
        ⟨hlen, hrows, hfw, hfb, ?_⟩ res h
      intro p hp hocc
      have hc := hcur p hp hocc
      show p.rank < st.rank + 1 ∨ (p.rank = st.rank + 1 ∧ p.file < 0)
      omega
    · split at h
      · -- a skip digit
        refine ih { st with file := st.file + (ch.toNat - Char.toNat '0') }
          ⟨hlen, hrows, hfw, hfb, ?_⟩ res h
        intro p hp hocc
        have hc := hcur p hp hocc
        show p.rank < st.rank ∨
          (p.rank = st.rank ∧ p.file < st.file + (ch.toNat - Char.toNat '0'))
        omega
      · -- a piece letter
        split at h
        next e heq => simp at h
        next pc heq =>
          split at h
          case isFalse => cases h
          case isTrue hb =>
            have hwfg : (mkBoard st.tiles).WF := ⟨hlen, hrows⟩
            have hwf' := WF_setTile hwfg ⟨st.file, st.rank⟩ (some pc)
            have hself : gridGet (st.write pc).tiles ⟨st.file, st.rank⟩ = some pc := by
              show ((mkBoard st.tiles).setTile ⟨st.file, st.rank⟩ (some pc)).get
                ⟨st.file, st.rank⟩ = some pc
              apply get_setTile_self hwfg
              · exact hb.2
              · exact hb.1
            have hne : ∀ p : Position, p.rank ≠ st.rank ∨ p.file ≠ st.file →
                gridGet (st.write pc).tiles p = gridGet st.tiles p := by
              intro p hp
              show ((mkBoard st.tiles).setTile ⟨st.file, st.rank⟩ (some pc)).get p =
                (mkBoard st.tiles).get p
              exact get_setTile_ne _ ⟨st.file, st.rank⟩ (some pc) p hp
            have hfw' : (st.write pc).foundW = true →
                ∃ p ∈ allPositions,
                  gridGet (st.write pc).tiles p = some ⟨.White, .King⟩ := by
              intro hw
              by_cases hpcw : pc = (⟨.White, .King⟩ : Piece)
              · refine ⟨⟨st.file, st.rank⟩, ?_, ?_⟩
                · rw [mem_allPositions]
                  exact ⟨hb.2, hb.1⟩
                · rw [hself, hpcw]
              · have hold : st.foundW = true := by
                  have hw2 : decide (st.foundW = true ∨
                      pc = (⟨.White, .King⟩ : Piece)) = true := hw
                  rw [decide_eq_true_eq] at hw2
                  rcases hw2 with hw2 | hw2
                  · exact hw2
                  · exact absurd hw2 hpcw
                obtain ⟨p, hp, hpk⟩ := hfw hold
                have hbefore := hcur p hp (by rw [hpk]; rfl)
                refine ⟨p, hp, ?_⟩
                rw [hne p (by omega)]
                exact hpk
            have hfb' : (st.write pc).foundB = true →
                ∃ p ∈ allPositions,
                  gridGet (st.write pc).tiles p = some ⟨.Black, .King⟩ := by
              intro hw
              by_cases hpcb : pc = (⟨.Black, .King⟩ : Piece)
              · refine ⟨⟨st.file, st.rank⟩, ?_, ?_⟩
                · rw [mem_allPositions]
                  exact ⟨hb.2, hb.1⟩
                · rw [hself, hpcb]
              · have hold : st.foundB = true := by
                  have hw2 : decide (st.foundB = true ∨
                      pc = (⟨.Black, .King⟩ : Piece)) = true := hw
                  rw [decide_eq_true_eq] at hw2
                  rcases hw2 with hw2 | hw2
                  · exact hw2
                  · exact absurd hw2 hpcb
                obtain ⟨p, hp, hpk⟩ := hfb hold
                have hbefore := hcur p hp (by rw [hpk]; rfl)
                refine ⟨p, hp, ?_⟩
                rw [hne p (by omega)]
                exact hpk
            have hcur' : ∀ p ∈ allPositions, (gridGet (st.write pc).tiles p).isSome →
                p.rank < (st.write pc).rank ∨
                  (p.rank = (st.write pc).rank ∧ p.file < (st.write pc).file) := by
              intro p hp hocc
              show p.rank < st.rank ∨ (p.rank = st.rank ∧ p.file < st.file + 1)
              by_cases hpq : p.rank = st.rank ∧ p.file = st.file
              · omega
              · have hpq2 : p.rank ≠ st.rank ∨ p.file ≠ st.file := by omega
                rw [hne p hpq2] at hocc
                have hc := hcur p hp hocc
                omega
            exact ih (st.write pc) ⟨hwf'.1, hwf'.2, hfw', hfb', hcur'⟩ res h

/-- A successful `from_fen` yields a board holding at least one king of each
color: the found-flags the final check inspects witness kings on the grid. -/
theorem fromFen_kings {s : List Char} {b : Board}
    (h : Board.fromFen s = some (.ok b)) :
    b.hasKing Color.White ∧ b.hasKing Color.Black := by
  unfold Board.fromFen at h
  simp only [] at h
  split at h
  · simp at h
  next tilesPart hparts0 =>
    split at h
    · cases h
    next e hplace => simp at h
    next stp hplace =>
      split at h
      · simp at h
      next ntmPart hparts1 =>
        split at h
        · simp at h
        next ntm hntm =>
          split at h
          · simp at h
          next castlingPart hparts2 =>
            split at h
            next e hcast => simp at h
            next wk wq bk bq hcast =>
              split at h
              · simp at h
              next epPart hparts3 =>
                split at h
                · cases h
                next e hep => simp at h
                next eps hep =>
                  split at h
                  · simp at h
                  next hmPart hparts4 =>
                    split at h
                    · simp at h
                    next hm hhm =>
                      split at h
                      · simp at h
                      next mnPart hparts5 =>
                        split at h
                        · simp at h
                        next mn hmn =>
                          split at h
                          case isTrue => simp at h
                          case isFalse hflags =>
                            push_neg at hflags
                            injection h with h
                            injection h with h
                            subst h
                            have hinv := placeGo_inv tilesPart initPlacement
                              (by decide) stp hplace
                            obtain ⟨-, -, hfw, hfb, -⟩ := hinv
                            obtain ⟨pw, hpw, hpwk⟩ := hfw hflags.1
                            obtain ⟨pb, hpb, hpbk⟩ := hfb hflags.2
                            exact ⟨⟨pw, hpw, hpwk⟩, ⟨pb, hpb, hpbk⟩⟩

/-- A successful `make_move` from a well-formed board whose side to move has a
king keeps at least one king of each color on the board, provided the square
behind the en-passant target does not hold the mover's own king (the one
square the en-passant step clears). -/
theorem makeMove_preserves_kings {b : Board} {m : Move} {st : BoardState}
    {b' : Board} (hwf : b.WF) (hking : b.hasKing b.next_to_move)
    (hEP : b.en_passant_square = some m.to_ →
      b.get ⟨m.to_.file, ((m.to_.rank : Int) + b.next_to_move.backwards).toNat⟩ ≠
        some ⟨b.next_to_move, Kind.King⟩)
    (h : makeMove b m = some (.ok st, b')) :
    b'.hasKing Color.White ∧ b'.hasKing Color.Black := by
  have hpeel : ∃ piece dests, b.get m.from_ = some piece ∧
      piece.color = b.next_to_move ∧ pieceMoves b piece m.from_ = some dests ∧
      m.to_ ∈ dests ∧ makeMoveUnchecked b m = some (.ok st, b') := by
    unfold makeMove at h
    split at h
    · simp at h
    next piece hg =>
      split at h
      · simp at h
      next hcol =>
        split at h
        · cases h
        next dests hd =>
          split at h
          case isTrue hmem => exact ⟨piece, dests, hg, not_not.mp hcol, hd, hmem, h⟩
          case isFalse => simp at h
  obtain ⟨piece, dests, hg, hcolp, hd, hmem, hu⟩ := hpeel
  obtain ⟨piece2, b2, b4, cap, hg2, hprom, hE, hb, hcl⟩ := makeMoveUnchecked_decomp hu
  rw [hg] at hg2
  injection hg2 with hg2
  subst hg2
  have hflip := makeMoveUnchecked_next_flip hu
  have henemy : b'.hasKing b.next_to_move.other := by
    have hk := classify_some_hasKing hcl
    rw [hflip] at hk
    exact hk
  have hb'get : ∀ p : Position, b'.get p = b4.get p := by
    intro p
    rw [hb]
    split
    · rw [reset_get, switch_get, epMarkStep_get]
    · rw [switch_get, epMarkStep_get]
  have hmover : b'.hasKing b.next_to_move := by
    by_cases hkind : piece.kind = Kind.King
    · -- the king itself moved; it stands on the destination afterwards
      have hpeq : piece = ⟨b.next_to_move, Kind.King⟩ := by
        have h1 : piece.color = b.next_to_move := hcolp
        have h2 : piece.kind = Kind.King := hkind
        rcases piece with ⟨pc1, pk1⟩
        rw [show pc1 = b.next_to_move from h1, show pk1 = Kind.King from h2]
      have hKnotP : piece.kind ≠ Kind.Pawn := by
        rw [hkind]; decide
      have hb2 : b2 = (b.setTile m.from_ none).setTile m.to_ (some piece) := by
        rw [promStep_nonpawn hKnotP] at hprom
        injection hprom with hprom
        exact hprom.symm
      have hTb : m.to_.file < 8 ∧ m.to_.rank < 8 := (pieceMoves_sound hd hmem).1
      have hFb : m.from_.file < 8 ∧ m.from_.rank < 8 := get_some_bounds hwf hg
      have hwf2 : b2.WF := by
        rw [hb2]
        exact WF_setTile (WF_setTile hwf _ _) _ _
      have hT : b2.get m.to_ = some piece := by
        rw [hb2]
        apply get_setTile_self (WF_setTile hwf _ _)
        · exact hTb.1
        · exact hTb.2
      obtain ⟨q, hqb, hq⟩ := castleStep_keeps_dest hwf2 hT hTb.1 hTb.2 hFb.1
      have hnotfire : ¬(piece.kind = Kind.Pawn ∧
          (markStep (castleStep b2 piece m) b.next_to_move piece m).en_passant_square =
            some m.to_) :=
        fun hc => hKnotP hc.1
      have hb4 : b4 = markStep (castleStep b2 piece m) b.next_to_move piece m := by
        rw [epCaptureStep_not hnotfire] at hE
        injection hE with h1 h2
        exact h1.symm
      refine ⟨q, ?_, ?_⟩
      · rw [mem_allPositions]
        exact hqb
      · rw [hb'get q, hb4, markStep_get, hq, hpeq]
    · -- a non-king piece moved; the mover's king kept its square
      obtain ⟨kp, hkpmem, hkp⟩ := hking
      have hkpF : kp ≠ m.from_ := by
        intro he
        rw [← he, hkp] at hg
        injection hg with hg
        exact hkind (by rw [← hg])
      have hkpT : kp ≠ m.to_ := by
        intro he
        have hown := (pieceMoves_sound hd hmem).2 ⟨b.next_to_move, Kind.King⟩
          (by rw [← he]; exact hkp)
        exact hown hcolp.symm
      have hb2kp : b2.get kp = b.get kp := by
        rcases promStep_cases hprom with hb2e | ⟨k, hk, hb2e⟩ <;> rw [hb2e]
        · rw [get_setTile_ne _ _ _ _ (Position.ne_coords hkpT),
            get_setTile_ne _ _ _ _ (Position.ne_coords hkpF)]
        · rw [get_setTile_ne _ _ _ _ (Position.ne_coords hkpT),
            get_setTile_ne _ _ _ _ (Position.ne_coords hkpT),
            get_setTile_ne _ _ _ _ (Position.ne_coords hkpF)]
      have hb2ep : b2.en_passant_square = b.en_passant_square := by
        rcases promStep_cases hprom with hb2e | ⟨k, hk, hb2e⟩ <;> rw [hb2e] <;>
          simp only [setTile_ep]
      have hb3kp : (markStep (castleStep b2 piece m) b.next_to_move piece m).get kp =
          b.get kp := by
        rw [markStep_get, castleStep_nonking hkind, hb2kp]
      have hb3ep : (markStep (castleStep b2 piece m) b.next_to_move piece m).en_passant_square =
          b.en_passant_square := by
        rw [markStep_ep, castleStep_ep, hb2ep]
      have hb4kp : b4.get kp = some ⟨b.next_to_move, Kind.King⟩ := by
        by_cases hfire : piece.kind = Kind.Pawn ∧
            (markStep (castleStep b2 piece m) b.next_to_move piece m).en_passant_square =
              some m.to_
        · have hepb : b.en_passant_square = some m.to_ := by
            rw [← hb3ep]
            exact hfire.2
          have htne : kp ≠ (⟨m.to_.file,
              ((m.to_.rank : Int) + b.next_to_move.backwards).toNat⟩ : Position) := by
            intro he
            exact hEP hepb (by rw [← he, hkp])
          rw [epCaptureStep_fires hfire.1 hfire.2] at hE
          injection hE with h1 h2
          rw [← h1, get_setTile_ne _ _ _ _ (Position.ne_coords htne), hb3kp, hkp]
        · rw [epCaptureStep_not hfire] at hE
          injection hE with h1 h2
          rw [← h1, hb3kp, hkp]
      refine ⟨kp, hkpmem, ?_⟩
      rw [hb'get kp, hb4kp]
  cases hc : b.next_to_move <;> rw [hc] at hmover henemy
  · exact ⟨hmover, henemy⟩
  · exact ⟨henemy, hmover⟩

/-! ## Claim C1 -/

/-- **C1**: every move accepted by `make_move` is classified per the spec's
rule: the side to move flips; if the new side to move has any legal
destination the result is `Normal` unless the halfmove counter is exactly 50,
in which case `Draw`; if it has none, the result is `Checkmate` with the mover
as winner when the new side's king is attacked, else `Draw` (stalemate). -/
theorem c1_terminal_classification (b : Board) (m : Move) (st : BoardState)
    (b' : Board) (h : makeMove b m = some (.ok st, b')) :
    b'.next_to_move = b.next_to_move.other ∧
      (existsLegalDest b' →
        st = if b'.halfmove_counter = 50 then .Draw else .Normal) ∧
      (¬existsLegalDest b' →
        ∃ kp, b'.getKingPos b'.next_to_move = some kp ∧
          st = if threatenedAt kp [] [] b'.next_to_move b' then
            .Checkmate b.next_to_move else .Draw) := by
  have hu : makeMoveUnchecked b m = some (.ok st, b') := by
    unfold makeMove at h
    split at h
    · simp at h
    · split at h
      · simp at h
      · split at h
        · cases h
        · split at h
          · exact h
          · simp at h
  have hflip := makeMoveUnchecked_next_flip hu
  obtain ⟨_, _, _, _, _, _, _, _, hcl⟩ := makeMoveUnchecked_decomp hu
  have hspec := classify_spec b' st hcl
  refine ⟨hflip, hspec.1, fun hnex => ?_⟩
  obtain ⟨kp, hk, hst⟩ := hspec.2 hnex
  refine ⟨kp, hk, ?_⟩
  rw [hst, hflip, Color.other_other]

/-- Witness for C1: the quiet king move Ka1–a2 on `c4Board` classifies as
`Normal`. -/
theorem c1_witness :
    makeMove c4Board ⟨⟨0, 7⟩, ⟨0, 6⟩, none⟩ = some (.ok .Normal, c1AfterBoard) ∧
      (c1AfterBoard.next_to_move = c4Board.next_to_move.other ∧
        (existsLegalDest c1AfterBoard →
          BoardState.Normal =
            if c1AfterBoard.halfmove_counter = 50 then .Draw else .Normal) ∧
        (¬existsLegalDest c1AfterBoard →
          ∃ kp, c1AfterBoard.getKingPos c1AfterBoard.next_to_move = some kp ∧
            BoardState.Normal =
              if threatenedAt kp [] [] c1AfterBoard.next_to_move c1AfterBoard then
                .Checkmate c4Board.next_to_move else .Draw)) :=
  ⟨by decide,
    c1_terminal_classification c4Board ⟨⟨0, 7⟩, ⟨0, 6⟩, none⟩ .Normal c1AfterBoard
      (by decide)⟩

/-! ## Claim C4 -/

/-- **C4**: in the threat oracle, an enemy king standing on any of the 8
squares adjacent to the target makes the square-is-attacked query report the
target as attacked. -/
theorem c4_adjacent_enemy_king_attacks (b : Board) (c : Color) (t p : Position)
    (hk : b.get p = some ⟨c.other, .King⟩)
    (hpf : p.file < 8) (hpr : p.rank < 8)
    (hdf : ((p.file : Int) - t.file).natAbs ≤ 1)
    (hdr : ((p.rank : Int) - t.rank).natAbs ≤ 1)
    (hne : p ≠ t) :
    threatenedAt t [] [] c b = true := by
  unfold threatenedAt
  rw [List.any_eq_true]
  refine ⟨p, (mem_allPositions p).mpr ⟨hpf, hpr⟩, ?_⟩
  rw [hk]
  simp only [attacksFrom, kingAttacks, decide_eq_true_eq, List.not_mem_nil,
    not_false_iff, true_and, and_true]
  refine ⟨hdf, hdr, ?_⟩
  rintro ⟨h0, h1⟩
  apply hne
  have hf : p.file = t.file := by omega
  have hr : p.rank = t.rank := by omega
  cases p
  cases t
  simp_all

/-- Witness for C4: the black king on c8 attacks b8 on `c4Board`. -/
theorem c4_witness :
    (c4Board.get ⟨2, 0⟩ = some ⟨Color.White.other, .King⟩ ∧
        ((2 : Nat) : Int) - ((1 : Nat) : Int) ≤ 1 ∧
        (⟨2, 0⟩ : Position) ≠ ⟨1, 0⟩) ∧
      threatenedAt ⟨1, 0⟩ [] [] .White c4Board = true :=
  ⟨by decide,
    c4_adjacent_enemy_king_attacks c4Board .White ⟨1, 0⟩ ⟨2, 0⟩ (by decide)
      (by decide) (by decide) (by decide) (by decide) (by decide)⟩

/-! ## Claim C9 -/

/-- **C9**: contrary to the claim (and to the repository's own
`arabic_parsing` test), `Move::arabic` as written rejects the five-character
promotion-suffixed form: the claim's example `a7a8q` parses to
`Err(ParsingError)`. -/
theorem c9_arabic_rejects_promotion_suffix :
    Move.arabic "a7a8q".toList = some (.error .ParsingError) := by decide

/-! ## Claim C2 -/

/-- **C2** (failing input): on `c2Board`, the en-passant capture `e5xd6`
(internally `⟨4,3⟩ → ⟨3,2⟩`) is accepted by `make_move` and returns
`Normal`, yet afterwards the mover's king on a5 is attacked along the rank by
the queen on h5 — the oracle never removed the captured pawn on d5, which sat
on a different square than the capture destination. -/
theorem c2_en_passant_capture_leaves_mover_in_check :
    (makeMove c2Board ⟨⟨4, 3⟩, ⟨3, 2⟩, none⟩).map
        (fun r => (r.1, r.2.isInCheckFor .White)) =
      some (.ok .Normal, some true) := by decide

/-! ## Claim C5 -/

/-- **C5**: a validated pawn move onto the far rank whose promotion kind is
absent, `King`, or `Pawn` makes `make_move` fail with `RequiresPromotion`, and
the board it leaves behind is the partially mutated one: the pawn has already
been relocated from `m.from_` to `m.to_`. -/
theorem c5_requires_promotion_after_relocation (b : Board) (m : Move) (c : Color)
    (hp : b.get m.from_ = some ⟨c, .Pawn⟩)
    (hc : c = b.next_to_move)
    (dests : List Position)
    (hd : pieceMoves b ⟨c, .Pawn⟩ m.from_ = some dests)
    (hto : m.to_ ∈ dests)
    (hrank : m.to_.rank = 7 ∨ m.to_.rank = 0)
    (hprom : m.promotion = none ∨ m.promotion = some .King ∨ m.promotion = some .Pawn) :
    makeMove b m =
      some (.error .RequiresPromotion,
        (b.setTile m.from_ none).setTile m.to_ (some ⟨c, .Pawn⟩)) := by
  subst hc
  simp only [makeMove, hp, hd]
  rw [if_neg (by simp), if_pos hto]
  simp only [makeMoveUnchecked, hp, promStep]
  rw [if_pos ⟨trivial, hrank⟩]
  rcases hprom with h | h | h <;> rw [h]

/-- Witness for C5: the unpromoted `a7a8` on `c5Board` errors with the pawn
already moved to a8. -/
theorem c5_witness :
    (c5Board.get ⟨0, 1⟩ = some ⟨Color.White, .Pawn⟩ ∧
        pieceMoves c5Board ⟨Color.White, .Pawn⟩ ⟨0, 1⟩ = some [⟨0, 0⟩]) ∧
      makeMove c5Board ⟨⟨0, 1⟩, ⟨0, 0⟩, none⟩ =
        some (.error .RequiresPromotion,
          (c5Board.setTile ⟨0, 1⟩ none).setTile ⟨0, 0⟩ (some ⟨Color.White, .Pawn⟩)) :=
  ⟨by decide,
    c5_requires_promotion_after_relocation c5Board ⟨⟨0, 1⟩, ⟨0, 0⟩, none⟩ .White
      (by decide) (by decide) [⟨0, 0⟩] (by decide) (by decide) (Or.inr rfl)
      (Or.inl rfl)⟩

/-! ## Claim C7 -/

/-- **C7** (failing input): parsing a board whose en-passant field is `e3`
and serializing yields `e6` (the stale `Position::from_str` and the
serializer disagree on the rank digit), and serializing the re-parse flips it
back; hence `serialize(parse(serialize(b))) ≠ serialize(b)` for
`b = parse(c7FenIn)`. -/
theorem c7_roundtrip_breaks_on_en_passant :
    (Board.fromFen c7FenIn).map (fun r => r.map Board.toFen) =
        some (.ok c7FenMid) ∧
      (Board.fromFen c7FenMid).map (fun r => r.map Board.toFen) =
        some (.ok c7FenIn) ∧
      c7FenIn ≠ c7FenMid := by decide

/-! ## Claim C3, counterexample -/

/-- **C3** (counterexample): on `c3Board` the king generator emits the
queenside castling destination c1 although the knight-square b1 is occupied —
the lazy generator omits the knight-square check that the claim requires. -/
theorem c3_counterexample :
    (⟨2, 7⟩ : Position) ∈ kingMovesList c3Board .White ⟨4, 7⟩ ∧
      (c3Board.get ⟨1, 7⟩).isSome = true := by decide

/-- **C3** (amended): the king generator emits the two-file castling
destination iff the corresponding castling-rights flag is set, neither the
king's square nor the crossed square is attacked (attacks computed with the
king's own square ignored as a blocker), the crossed square is empty, and the
landing square is empty or holds an opponent's piece and is not attacked.
Contrary to the claim, the queenside knight-square is not required to be
empty, and the landing square may hold an opponent's piece. -/
theorem c3_amended_castling_iff (b : Board) (c : Color) (f : Position)
    (h7f : f.file ≤ 7) (h7r : f.rank ≤ 7) :
    (2 ≤ f.file →
      ((⟨f.file - 2, f.rank⟩ : Position) ∈ kingMovesList b c f ↔
        (b.canCastleQueenside c = true ∧
          threatenedAt f [f] [] c b = false ∧
          b.get ⟨f.file - 1, f.rank⟩ = none ∧
          threatenedAt ⟨f.file - 1, f.rank⟩ [f] [] c b = false ∧
          (∀ pc, b.get ⟨f.file - 2, f.rank⟩ = some pc → pc.color ≠ c) ∧
          threatenedAt ⟨f.file - 2, f.rank⟩ [f] [] c b = false))) ∧
      (f.file + 2 ≤ 7 →
        ((⟨f.file + 2, f.rank⟩ : Position) ∈ kingMovesList b c f ↔
          (b.canCastleKingside c = true ∧
            threatenedAt f [f] [] c b = false ∧
            b.get ⟨f.file + 1, f.rank⟩ = none ∧
            threatenedAt ⟨f.file + 1, f.rank⟩ [f] [] c b = false ∧
            (∀ pc, b.get ⟨f.file + 2, f.rank⟩ = some pc → pc.color ≠ c) ∧
            threatenedAt ⟨f.file + 2, f.rank⟩ [f] [] c b = false))) := by
  constructor
  · intro h2
    rw [mem_kingMovesList, ← kingCandidate_queenside b c f h2 h7f h7r]
    constructor
    · rintro ⟨⟨dx, dy⟩, hd, h⟩
      have hco := kingCandidate_coords h
      simp only [] at hco
      have hdx : dx = -2 := by omega
      have hdy : dy = 0 := by omega
      subst hdx
      subst hdy
      exact h
    · intro h
      exact ⟨(-2, 0), by simp [kingDeltas], h⟩
  · intro h2
    rw [mem_kingMovesList, ← kingCandidate_kingside b c f h2 h7r]
    constructor
    · rintro ⟨⟨dx, dy⟩, hd, h⟩
      have hco := kingCandidate_coords h
      simp only [] at hco
      have hdx : dx = 2 := by omega
      have hdy : dy = 0 := by omega
      subst hdx
      subst hdy
      exact h
    · intro h
      exact ⟨(2, 0), by simp [kingDeltas], h⟩

/-- Witness for C3 (amended): on `c3Board` the amended conditions hold for
queenside castling (the unchecked knight-square b1 notwithstanding), so c1 is
emitted. -/
theorem c3_witness :
    (⟨2, 7⟩ : Position) ∈ kingMovesList c3Board .White ⟨4, 7⟩ ∧
      c3Board.canCastleQueenside .White = true := by
  have h := (c3_amended_castling_iff c3Board .White ⟨4, 7⟩ (by decide) (by decide)).1
    (by decide)
  refine ⟨h.mpr ⟨by decide, by decide, by decide, by decide, ?_, by decide⟩, by decide⟩
  intro pc hpc
  have hpc2 : c3Board.get ⟨2, 7⟩ = some pc := hpc
  rw [show c3Board.get ⟨2, 7⟩ = none from by decide] at hpc2
  cases hpc2

/-! ## Claim C8, counterexample -/

/-- **C8** (counterexample): `from_fen` accepts a placement with two kings of
each color, so reachable boards do not always contain exactly one king per
color. -/
theorem c8_counterexample :
    (Board.fromFen c8DupFen).map (fun r => r.map fun b => kingCount b .White) =
      some (.ok 2) := by decide

/-- **C8** (amended): `from_fen` guarantees at least one king of each color
(not exactly one — see the counterexample), and a successful `make_move` from
a well-formed board whose side to move has a king keeps at least one king of
each color, provided the square behind the en-passant target does not hold the
mover's own king (the one square the en-passant step clears unconditionally);
`get_king_position` is then defined on the resulting board. -/
theorem c8_amended_kings :
    (∀ s b, Board.fromFen s = some (.ok b) →
        b.hasKing Color.White ∧ b.hasKing Color.Black) ∧
      ∀ b m st b', b.WF → b.hasKing b.next_to_move →
        (b.en_passant_square = some m.to_ →
          b.get ⟨m.to_.file, ((m.to_.rank : Int) + b.next_to_move.backwards).toNat⟩ ≠
            some ⟨b.next_to_move, Kind.King⟩) →
        makeMove b m = some (.ok st, b') →
        (b'.hasKing Color.White ∧ b'.hasKing Color.Black) ∧
          ∀ c, ∃ kp, b'.getKingPos c = some kp := by
  refine ⟨fun s b h => fromFen_kings h, fun b m st b' hwf hk hEP h => ?_⟩
  have hpres := makeMove_preserves_kings hwf hk hEP h
  refine ⟨hpres, fun c => ?_⟩
  cases c
  · exact getKingPos_isSome hpres.1
  · exact getKingPos_isSome hpres.2

/-- Witness for the amended C8: the parsed starting position holds both kings,
and the concrete legal move Ka1–a2 on `c4Board` preserves both kings with
`get_king_position` defined on the result. -/
theorem c8_witness :
    (defaultBoard.hasKing Color.White ∧ defaultBoard.hasKing Color.Black) ∧
      ((c1AfterBoard.hasKing Color.White ∧ c1AfterBoard.hasKing Color.Black) ∧
        ∀ c, ∃ kp, c1AfterBoard.getKingPos c = some kp) :=
  ⟨c8_amended_kings.1 startFen defaultBoard (by decide),
    c8_amended_kings.2 c4Board ⟨⟨0, 7⟩, ⟨0, 6⟩, none⟩ .Normal c1AfterBoard
      (by decide) (by decide) (by decide) (by decide)⟩

/-! ## Claim C6, counterexample -/

/-- **C6** (counterexample): the first two error names are the reverse of the
claim: an empty source square yields `NoPieceToMove` (the claim says
`OtherPlayersTurn`), and an opponent's piece on the source square yields
`OtherPlayersTurn` (the claim says `NoPieceToMove`). -/
theorem c6_counterexample :
    makeMove defaultBoard ⟨⟨0, 3⟩, ⟨0, 2⟩, none⟩ =
        some (.error .NoPieceToMove, defaultBoard) ∧
      makeMove defaultBoard ⟨⟨0, 1⟩, ⟨0, 2⟩, none⟩ =
        some (.error .OtherPlayersTurn, defaultBoard) ∧
      Error.NoPieceToMove ≠ Error.OtherPlayersTurn := by decide

/-- **C6** (amended): the validation step of `make_move` fails with
`NoPieceToMove` when no piece sits on `m.from_`, with `OtherPlayersTurn` when
the piece is not the side to move's, and with `IllegalMove` when the
destination is not among the piece's generated moves; in each case the board
is returned unchanged. -/
theorem c6_amended_validation (b : Board) (m : Move) :
    (b.get m.from_ = none → makeMove b m = some (.error .NoPieceToMove, b)) ∧
      (∀ pc, b.get m.from_ = some pc → pc.color ≠ b.next_to_move →
        makeMove b m = some (.error .OtherPlayersTurn, b)) ∧
      (∀ pc dests, b.get m.from_ = some pc → pc.color = b.next_to_move →
        pieceMoves b pc m.from_ = some dests → m.to_ ∉ dests →
        makeMove b m = some (.error .IllegalMove, b)) := by
  refine ⟨fun h => ?_, fun pc h hne => ?_, fun pc dests h hcol hd hnm => ?_⟩
  · simp only [makeMove, h]
  · simp only [makeMove, h]
    rw [if_pos hne]
  · simp only [makeMove, h, hd]
    rw [if_neg (by simp [hcol]), if_neg hnm]

/-- Witness for C6 (amended): an empty source square on the default board. -/
theorem c6_witness :
    defaultBoard.get ⟨3, 3⟩ = none ∧
      makeMove defaultBoard ⟨⟨3, 3⟩, ⟨3, 4⟩, none⟩ =
        some (.error .NoPieceToMove, defaultBoard) :=
  ⟨by decide, (c6_amended_validation defaultBoard ⟨⟨3, 3⟩, ⟨3, 4⟩, none⟩).1 (by decide)⟩

end Chess





